import Mathlib

set_option maxRecDepth 8000

/-!
A verification development for the `pex/common.py` module: the Chroot overlay
(label-tagged filesets over a base directory), its add-operations, the helper
installers (`safe_copy`, `safe_mkdir`) and the deterministic zip serializer
(`Chroot.zip`, `PermPreservingZipFile`).

Paths are modelled as the character lists underlying Lean `String`s, and the
POSIX path functions used by the module (`os.path.normpath`, `os.path.dirname`,
`os.path.join`, `os.path.relpath`) are translated statement by statement from
CPython's `posixpath` implementation.
-/

namespace Pex

/-! ## Python string/path primitives (POSIX, `os.sep = '/'`, `os.altsep = None`) -/

/-- Python `s.split('/')` on a character list: splits at every slash, keeps
empty pieces, and returns `[[]]` on the empty string. -/
def splitOnSlash : List Char → List (List Char)
  | [] => [[]]
  | c :: rest =>
    if c = '/' then [] :: splitOnSlash rest
    else
      match splitOnSlash rest with
      | [] => [[c]]
      | p :: ps => (c :: p) :: ps

/-- Python `'/'.join(pieces)`. -/
def joinSlash : List (List Char) → List Char
  | [] => []
  | [p] => p
  | p :: q :: ps => p ++ '/' :: joinSlash (q :: ps)

/-- The number of leading separators retained by `posixpath.normpath`: POSIX
keeps two leading slashes when the path starts with exactly two. -/
def initialSlashes (cs : List Char) : Nat :=
  if cs.take 1 = ['/'] then
    if cs.take 2 = ['/', '/'] ∧ ¬ cs.take 3 = ['/', '/', '/'] then 2 else 1
  else 0

/-- One step of the `new_comps` accumulation loop of `posixpath.normpath`:
drop empty and `.` components, resolve `..` against the accumulated stack,
and keep leading `..` components of a relative path. -/
def normPartsStep (initSl : Nat) (acc : List (List Char)) (comp : List Char) :
    List (List Char) :=
  if comp = [] ∨ comp = ['.'] then acc
  else if ¬ comp = ['.', '.'] ∨ (initSl = 0 ∧ acc = []) ∨
      (¬ acc = [] ∧ acc.getLast? = some ['.', '.']) then
    acc ++ [comp]
  else if ¬ acc = [] then acc.dropLast
  else acc

/-- The `new_comps` accumulation loop of `posixpath.normpath`. -/
def normParts (initSl : Nat) (comps : List (List Char)) : List (List Char) :=
  comps.foldl (normPartsStep initSl) []

/-- `posixpath.normpath` on a character list. -/
def normpathCs (cs : List Char) : List Char :=
  if cs = [] then ['.']
  else
    let isl := initialSlashes cs
    let comps := normParts isl (splitOnSlash cs)
    let joined := List.replicate isl '/' ++ joinSlash comps
    if joined = [] then ['.'] else joined

/-- `os.path.normpath` on strings. -/
def normpath (s : String) : String := String.mk (normpathCs s.data)

/-- `p[:p.rfind('/') + 1]` — the prefix of `p` through its last slash
(empty when `p` has no slash). -/
def takeThroughLastSlash : List Char → List Char
  | [] => []
  | c :: cs =>
    match takeThroughLastSlash cs with
    | [] => if c = '/' then ['/'] else []
    | t => c :: t

/-- Python `s.rstrip('/')`. -/
def rstripSlashCs (cs : List Char) : List Char :=
  (cs.reverse.dropWhile (fun c => c = '/')).reverse

/-- `posixpath.dirname` on a character list. -/
def dirnameCs (cs : List Char) : List Char :=
  let head := takeThroughLastSlash cs
  if ¬ head = [] ∧ ¬ head = List.replicate head.length '/' then rstripSlashCs head
  else head

/-- `os.path.dirname` on strings. -/
def dirname (s : String) : String := String.mk (dirnameCs s.data)

/-- `posixpath.join` for two arguments. -/
def pyJoinCs (a b : List Char) : List Char :=
  if b.take 1 = ['/'] then b
  else if a = [] ∨ a.getLast? = some '/' then a ++ b
  else a ++ '/' :: b

/-- `os.path.join` on strings. -/
def pyJoin (a b : String) : String := String.mk (pyJoinCs a.data b.data)

/-- Length of the longest common prefix of two component lists
(`os.path.commonprefix` applied to the two lists). -/
def commonPrefixLen : List (List Char) → List (List Char) → Nat
  | a :: as, b :: bs => if a = b then commonPrefixLen as bs + 1 else 0
  | _, _ => 0

/-- The component list of `posixpath.abspath(p)` with empty components
filtered out, relative to the working directory `cwd` — this is exactly the
`[x for x in abspath(p).split(sep) if x]` computation inside
`posixpath.relpath`. -/
def abspathComps (cwd p : List Char) : List (List Char) :=
  (splitOnSlash (normpathCs (if p.take 1 = ['/'] then p else pyJoinCs cwd p))).filter
    (fun c => ¬ c = [])

/-- `posixpath.relpath(path, start)` evaluated with working directory `cwd`. -/
def relpathCs (cwd path start : List Char) : List Char :=
  let pl := abspathComps cwd path
  let sl := abspathComps cwd start
  let i := commonPrefixLen sl pl
  let rel := List.replicate (sl.length - i) ['.', '.'] ++ pl.drop i
  if rel = [] then ['.'] else joinSlash rel

/-- `os.path.relpath` on strings. -/
def relpathStr (cwd path start : String) : String :=
  String.mk (relpathCs cwd.data path.data start.data)

/-- The `while arcname[0] in (os.sep, os.altsep)` loop of
`zip_entry_from_file` (on POSIX `os.altsep` is `None`). -/
def dropLeadingSlashes (cs : List Char) : List Char :=
  cs.dropWhile (fun c => c = '/')

/-- Python `s.startswith(pre)`. -/
def startsWithCs (pre cs : List Char) : Bool := pre.isPrefixOf cs

/-- Lexicographic code-point comparison on character lists — Python's `<` on
`str`. -/
def ltCs : List Char → List Char → Bool
  | [], [] => false
  | [], _ :: _ => true
  | _ :: _, [] => false
  | a :: as, b :: bs =>
    if a.toNat < b.toNat then true
    else if b.toNat < a.toNat then false
    else ltCs as bs

/-- Python's `<` on strings. -/
def strLt (a b : String) : Bool := ltCs a.data b.data

/-- Insert into an ascending list, keeping earlier elements first on ties. -/
def insertAsc (a : String) : List String → List String
  | [] => [a]
  | b :: bs => if strLt b a then b :: insertAsc a bs else a :: b :: bs

/-- Python `sorted` on strings: ascending, stable, lexicographic order on
code points (any stable sort computes the same list). -/
def pySorted (xs : List String) : List String :=
  xs.foldr insertAsc []

/-- Python `sorted(set(xs))`. -/
def pySortedSet (xs : List String) : List String := pySorted xs.dedup

/-! ## Errno constants (Linux values, as in the `errno` module) -/

def EPERM : Nat := 1
def ENOENT : Nat := 2
def EEXIST : Nat := 17
def EXDEV : Nat := 18

/-! ## Mode-bit helpers -/

/-- The permission value computed by `chmod_plus_x`: mask to `0o777`, then add
each execute bit whose corresponding read bit is present. -/
def chmod_plus_x_perm (path_mode : Nat) : Nat :=
  let m0 := path_mode &&& 0o777
  let m1 := if m0 &&& 0o400 ≠ 0 then m0 ||| 0o100 else m0
  let m2 := if m1 &&& 0o40 ≠ 0 then m1 ||| 0o10 else m1
  if m2 &&& 0o4 ≠ 0 then m2 ||| 0o1 else m2

/-- `os.chmod`: replaces the low permission bits of `st_mode` and keeps the
file-type bits. -/
def chmodApply (st_mode newPerm : Nat) : Nat :=
  (st_mode &&& 0o170000) ||| (newPerm &&& 0o7777)

/-! ## `safe_mkdir` and `Chroot.__init__` -/

/-- The try/except part of `safe_mkdir`: `os.makedirs` either succeeds or
raises an `OSError` (modelled by its errno), and a non-EEXIST error is
re-raised by the handler. -/
def safe_mkdir_attempt (mkdirErr : Option Nat) : Except Nat Unit :=
  match mkdirErr with
  | none => .ok ()
  | some e => if e ≠ EEXIST then .error e else .ok ()

/-- `safe_mkdir`.  Its `finally:` block ends in `return directory`; in Python
a `return` executed inside `finally` discards any in-flight exception, so the
call returns normally whatever the try/except block did. -/
def safe_mkdir (mkdirErr : Option Nat) (directory : String) : Except Nat String :=
  match safe_mkdir_attempt mkdirErr with
  | _ => .ok directory

/-! ## The Chroot -/

/-- Fileset labels: `label=None` is a valid (default) label. -/
abbrev Label := Option String

inductive ChrootErr where
  /-- `Chroot.Error("Destination path is not a relative path!")` -/
  | notRelative
  /-- `Chroot.ChrootTaggingException(filename, orig_tag, new_tag)` -/
  | taggingConflict (filename : String) (origTag newTag : Label)
  /-- an `OSError` escaping from a materialization call -/
  | osError (errno : Nat)
  /-- `Chroot.Error("Unable to create chroot ...")` raised in `__init__` -/
  | initError
deriving DecidableEq

/-- What the chroot's backing directory holds at one relative path. -/
inductive DiskEntry where
  | file (st_mode : Nat) (data : List Nat)
  | symlinkTo (target : String)
deriving DecidableEq

structure ChrootState where
  filesets : List (Label × List String)
  disk : List (String × DiskEntry)
deriving DecidableEq

def emptyChroot : ChrootState := { filesets := [], disk := [] }

/-- `Chroot.__init__`: `safe_mkdir(chroot_base)` wrapped in an
`except OSError` handler that re-raises as `Chroot.Error`. -/
def chroot_init (mkdirErr : Option Nat) : Except ChrootErr ChrootState :=
  match safe_mkdir mkdirErr "chroot_base" with
  | .error _ => .error .initError
  | .ok _ => .ok emptyChroot

/-- `self.filesets.get(label, set())` (used by `Chroot.get` and
`Chroot.zip`): first binding wins, absent labels give the empty set. -/
def fsGet (fss : List (Label × List String)) (label : Label) : List String :=
  match fss.find? (fun e => e.1 == label) with
  | some e => e.2
  | none => []

/-- Set insertion for a fileset (`set.add`). -/
def listInsert (fs : List String) (fn : String) : List String :=
  if fn ∈ fs then fs else fs ++ [fn]

/-- `self.filesets[label].add(fn)` on a `defaultdict(set)`: update the
label's set in place, or append a fresh singleton binding. -/
def fsAdd : List (Label × List String) → Label → String → List (Label × List String)
  | [], label, fn => [(label, [fn])]
  | (l, fs) :: rest, label, fn =>
    if l = label then (l, listInsert fs fn) :: rest
    else (l, fs) :: fsAdd rest label fn

/-- `Chroot.files()`: the union of all filesets. -/
def chrootFiles (fss : List (Label × List String)) : List String :=
  fss.flatMap (fun e => e.2)

/-- `Chroot._check_tag`: scan the filesets in insertion order and raise a
`ChrootTaggingException` at the first set that holds `fn` under another
label. -/
def check_tag (fss : List (Label × List String)) (fn : String) (label : Label) :
    Except ChrootErr Unit :=
  match fss with
  | [] => .ok ()
  | (fsLabel, fs) :: rest =>
    if fn ∈ fs ∧ fsLabel ≠ label then .error (.taggingConflict fn fsLabel label)
    else check_tag rest fn label

/-- `Chroot._tag`. -/
def tag (s : ChrootState) (fn : String) (label : Label) : Except ChrootErr ChrootState :=
  match check_tag s.filesets fn label with
  | .error e => .error e
  | .ok _ => .ok { s with filesets := fsAdd s.filesets label fn }

/-- `Chroot._normalize`: `os.path.normpath`, then reject results that start
with the separator or with the two characters `..`. -/
def normalize (dst : String) : Except ChrootErr String :=
  let d := normpath dst
  if startsWithCs ['/'] d.data || startsWithCs ['.', '.'] d.data then .error .notRelative
  else .ok d

def diskGet (d : List (String × DiskEntry)) (p : String) : Option DiskEntry :=
  match d.find? (fun e => e.1 == p) with
  | some e => some e.2
  | none => none

def diskSet : List (String × DiskEntry) → String → DiskEntry → List (String × DiskEntry)
  | [], p, v => [(p, v)]
  | (q, w) :: rest, p, v => if q = p then (q, v) :: rest else (q, w) :: diskSet rest p v

/-- The five Chroot add-operations.  `copy` and `link` carry the content and
mode of the external source file they read; `write` carries the payload and
the `executable` flag. -/
inductive Op where
  | copy (srcMode : Nat) (srcData : List Nat) (dst : String) (label : Label)
  | link (srcMode : Nat) (srcData : List Nat) (dst : String) (label : Label)
  | symlink (src : String) (dst : String) (label : Label)
  | write (data : List Nat) (dst : String) (label : Label) (executable : Bool)
  | touch (dst : String) (label : Label)
deriving DecidableEq

def Op.dst : Op → String
  | .copy _ _ d _ => d
  | .link _ _ d _ => d
  | .symlink _ d _ => d
  | .write _ d _ _ => d
  | .touch d _ => d

def Op.label : Op → Label
  | .copy _ _ _ l => l
  | .link _ _ _ l => l
  | .symlink _ _ l => l
  | .write _ _ l _ => l
  | .touch _ l => l

def Op.isSymlinkOp : Op → Bool
  | .symlink _ _ _ => true
  | _ => false

/-- One Chroot add-operation: `_normalize`, then `_tag`, then
`_ensure_parent` (which by `safe_mkdir` returning normally can never fail —
see claim C10), then the type-specific materialization.  The returned state
keeps every mutation made before an exception: in particular `_tag` runs
before the filesystem step, so a failing materialization leaves the path
tagged.  `createMode` is the `st_mode` a newly created regular file receives
from `open`. -/
def applyOp (createMode : Nat) (s : ChrootState) (op : Op) :
    ChrootState × Option ChrootErr :=
  match normalize op.dst with
  | .error e => (s, some e)
  | .ok d =>
    match tag s d op.label with
    | .error e => (s, some e)
    | .ok s1 =>
      match op with
      | .copy m data _ _ =>
        -- shutil.copy: copyfile (overwrites) + copymode
        ({ s1 with disk := diskSet s1.disk d (.file m data) }, none)
      | .link m data _ _ =>
        -- safe_copy(src, chroot/dst, overwrite=False) within one filesystem:
        -- os.link raises EEXIST iff dst exists, and then the call no-ops.
        match diskGet s1.disk d with
        | some _ => (s1, none)
        | none => ({ s1 with disk := diskSet s1.disk d (.file m data) }, none)
      | .symlink src _ _ =>
        -- os.symlink raises FileExistsError (EEXIST) when dst already exists.
        match diskGet s1.disk d with
        | some _ => (s1, some (.osError EEXIST))
        | none => ({ s1 with disk := diskSet s1.disk d (.symlinkTo src) }, none)
      | .write data _ _ executable =>
        -- open(.., mode) truncates an existing file keeping its mode;
        -- a new file is created with createMode.  chmod_plus_x then stats the
        -- file and chmods the computed permission onto it.
        let m0 := match diskGet s1.disk d with
          | some (.file m _) => m
          | _ => createMode
        let m1 := if executable then chmodApply m0 (chmod_plus_x_perm m0) else m0
        ({ s1 with disk := diskSet s1.disk d (.file m1 data) }, none)
      | .touch _ _ =>
        -- safe_open(file, "a") creates the file when absent, then os.utime.
        match diskGet s1.disk d with
        | some _ => (s1, none)
        | none => ({ s1 with disk := diskSet s1.disk d (.file createMode []) }, none)

/-- Run a sequence of add-operations.  Each operation acts on the state the
previous one left behind, whether or not that one raised (a caller may catch
the exception and carry on with the same Chroot). -/
def runOps (createMode : Nat) (s : ChrootState) : List Op → ChrootState
  | [] => s
  | op :: ops => runOps createMode (applyOp createMode s op).1 ops

/-- A relative path appears in at most one fileset's path set. -/
def TagInvariant (s : ChrootState) : Prop :=
  ∀ p l1 l2, p ∈ fsGet s.filesets l1 → p ∈ fsGet s.filesets l2 → l1 = l2

/-! ## `safe_copy` -/

/-- The operating system's response to the `os.link(source, dest)` call. -/
inductive LinkOutcome where
  | success
  | fails (errno : Nat)
deriving DecidableEq

/-- A flat file system for the installer: path to content. -/
abbrev SimpleFS := List (String × List Nat)

def sfsGet (fs : SimpleFS) (p : String) : Option (List Nat) :=
  match fs.find? (fun e => e.1 == p) with
  | some e => some e.2
  | none => none

def sfsSet : SimpleFS → String → List Nat → SimpleFS
  | [], p, v => [(p, v)]
  | (q, w) :: rest, p, v => if q = p then (q, v) :: rest else (q, w) :: sfsSet rest p v

/-- The inner `do_copy` of `safe_copy`: `shutil.copy` to a uuid-suffixed
temporary sibling, then `os.rename` over `dest` — the net effect is a single
atomic update of `dest` (or ENOENT when the source is missing). -/
def do_copy (fs : SimpleFS) (source dest : String) : Except Nat SimpleFS :=
  match sfsGet fs source with
  | none => .error ENOENT
  | some d => .ok (sfsSet fs dest d)

/-- `safe_copy(source, dest, overwrite)`.  `hasLink` is
`hasattr(os, "link")`; `linkRes` is the outcome of the `os.link` call on the
platforms that have it (on success the destination becomes a hard link to the
source, hence carries the same content). -/
def safe_copy (hasLink : Bool) (linkRes : LinkOutcome) (fs : SimpleFS)
    (source dest : String) (overwrite : Bool) : Except Nat SimpleFS :=
  if hasLink then
    match linkRes with
    | .success =>
      .ok (match sfsGet fs source with
           | some d => sfsSet fs dest d
           | none => fs)
    | .fails e =>
      if e = EEXIST then (if overwrite then do_copy fs source dest else .ok fs)
      else if e = EPERM ∨ e = EXDEV then do_copy fs source dest
      else .error e
  else if (sfsGet fs dest).isSome then
    (if overwrite then do_copy fs source dest else .ok fs)
  else do_copy fs source dest

/-! ## The zip serializer (`Chroot.zip` and `PermPreservingZipFile`) -/

abbrev DT6 := Nat × Nat × Nat × Nat × Nat × Nat

/-- `DETERMINISTIC_DATETIME.timetuple()[:6]`: the start of MS-DOS time. -/
def DETERMINISTIC_DATETIME : DT6 := (1980, 1, 1, 0, 0, 0)

def ZIP_STORED : Nat := 0
def ZIP_DEFLATED : Nat := 8

structure ZipInfo where
  filename : String
  date_time : DT6
  external_attr : Nat
  file_size : Nat
  compress_type : Nat
deriving DecidableEq

structure ZipEntry where
  info : ZipInfo
  data : List Nat
deriving DecidableEq

/-- A snapshot of the chroot's backing directory tree.  Directory entries are
listed in on-disk (scandir) order. -/
inductive FSNode where
  | file (st_mode : Nat) (data : List Nat)
  | dir (st_mode : Nat) (entries : List (String × FSNode))

def FSNode.isFileNode : FSNode → Bool
  | .file _ _ => true
  | .dir _ _ => false

/-- Look a child up by name (names within a real directory are unique). -/
def childNamed (entries : List (String × FSNode)) (name : String) : Option FSNode :=
  match entries.find? (fun e => e.1 == name) with
  | some e => some e.2
  | none => none

/-- Resolve a relative path below the chroot, component-wise. -/
def lookupComps : FSNode → List String → Option FSNode
  | n, [] => some n
  | .file _ _, _ :: _ => none
  | .dir _ es, c :: cs =>
    match childNamed es c with
    | some n => lookupComps n cs
    | none => none

/-- The components the kernel resolves for a path below the chroot: empty and
`.` components resolve away (tracked chroot paths contain no `..`). -/
def relComps (s : String) : List String :=
  ((splitOnSlash s.data).map String.mk).filter (fun c => !(c == "" || c == "."))

def dirFileNames (es : List (String × FSNode)) : List String :=
  es.filterMap (fun e => if e.2.isFileNode then some e.1 else none)

mutual
/-- `os.walk(root)` over the subtree `n`: yields
`(root string, components of the root below the walk top, file names)` in
top-down order.  Subdirectories are visited in directory order and file
lists are yielded unsorted (the serializer sorts them); walking a non-ir
yields nothing. -/
def walkNode (rootStr : String) (rcomps : List String) : FSNode → List (String × List String × List String)
  | .file _ _ => []
  | .dir _ es => (rootStr, rcomps, dirFileNames es) :: walkChildren rootStr rcomps es

def walkChildren (rootStr : String) (rcomps : List String) : List (String × FSNode) → List (String × List String × List String)
  | [] => []
  | (name, child) :: rest =>
    (if child.isFileNode then []
     else walkNode (pyJoin rootStr name) (rcomps ++ [name]) child) ++
    walkChildren rootStr rcomps rest
end

/-- The static configuration of one `Chroot.zip` call: `base` is
`self.chroot`, `stripPfx` the `strip_prefix` argument, `exclude_file` the
exclusion predicate, `compression` the archive-wide compression constant, and
`cwd` the working directory `os.path.relpath` consults for relative inputs. -/
structure ZCfg where
  base : String
  cwd : String
  stripPfx : Option String
  exclude_file : String → Bool
  compression : Nat

/-- One `path` group of the `iter_files` generator: a top-level file path
yields itself unless the predicate excludes its full joined path; a directory
is walked with the file names of each visited root sorted, a file being
skipped when the predicate excludes its bare name.  Pairs are
`(chroot-relative components of the yielded file, arcname)`. -/
def iterGroup (cfg : ZCfg) (fs : FSNode) (path : String) : List (List String × String) :=
  let full := pyJoin cfg.base path
  let comps := relComps path
  match lookupComps fs comps with
  | some (.file _ _) =>
    if cfg.exclude_file full then [] else [(comps, path)]
  | some (.dir m es) =>
    (walkNode full [] (.dir m es)).flatMap (fun t =>
      (pySorted t.2.2).filterMap (fun f =>
        if cfg.exclude_file f then none
        else
          some (comps ++ t.2.1 ++ [f],
            pyJoin path (relpathStr cfg.cwd (pyJoin t.1 f) full))))
  | none => []

/-- The `iter_files` generator: groups iterated over `sorted(selected_files)`. -/
def iterFiles (cfg : ZCfg) (fs : FSNode) (selected : List String) :
    List (List String × String) :=
  (pySortedSet selected).flatMap (iterGroup cfg fs)

/-- The stat record `zip_entry_from_file` consults. -/
structure StatRec where
  st_mode : Nat
  isdir : Bool
  st_size : Nat
  st_mtime : Nat
deriving DecidableEq

/-- `PermPreservingZipFile.zip_entry_from_file`: normalize the arcname, strip
leading separators, mark directories with a trailing slash, pack the stat
mode into the upper 16 attribute bits (plus the MS-DOS directory flag), and
take either the supplied `date_time` or `time.localtime(st_mtime)` (`lt`). -/
def zip_entry_from_file (st : StatRec) (contents : List Nat) (filename : String)
    (arcname : Option String) (date_time : Option DT6) (lt : Nat → DT6) : ZipEntry :=
  let a0 := match arcname with
    | none => filename
    | some a => a
  let a1 := normpath a0
  let a2 := String.mk (dropLeadingSlashes a1.data)
  let a3 := if st.isdir then a2 ++ "/" else a2
  let dt := match date_time with
    | none => lt st.st_mtime
    | some d => d
  let ea := (st.st_mode &&& 0xFFFF) <<< 16
  if st.isdir then
    { info := { filename := a3, date_time := dt, external_attr := ea ||| 0x10,
                file_size := 0, compress_type := ZIP_STORED }, data := [] }
  else
    { info := { filename := a3, date_time := dt, external_attr := ea,
                file_size := st.st_size, compress_type := ZIP_DEFLATED },
      data := contents }

/-- `zf.writestr(zinfo, data, compression)`: the explicit compress-type
argument overrides the one stored in the info, and `writestr` re-derives
`file_size` from the data it is given. -/
def writestr (e : ZipEntry) (compression : Nat) : ZipEntry :=
  let i := { e.info with compress_type := compression, file_size := e.data.length }
  { e with info := i }

def statOfNode (mt : List String → Nat) (comps : List String) : FSNode → StatRec
  | .file m d => { st_mode := m, isdir := false, st_size := d.length, st_mtime := mt comps }
  | .dir m _ => { st_mode := m, isdir := true, st_size := 0, st_mtime := mt comps }

def contentsOfNode : FSNode → List Nat
  | .file _ d => d
  | .dir _ _ => []

/-- The inner `write_entry(filename, arcname)` closure: stat and (for regular
files) read the file — an absent file would raise ENOENT from `os.stat` —
compute the stripped arcname, pick the deterministic or the real timestamp,
and produce the `writestr` record.  `comps` are the chroot-relative
components of the stated path. -/
def write_entry (cfg : ZCfg) (det : Bool) (mt : List String → Nat) (lt : Nat → DT6)
    (fs : FSNode) (comps : List String) (arc : String) : Except Nat ZipEntry :=
  match lookupComps fs comps with
  | none => .error ENOENT
  | some n =>
    let arcname := match cfg.stripPfx with
      | some sp => relpathStr cfg.cwd arc sp
      | none => arc
    let dt : Option DT6 := if det then some DETERMINISTIC_DATETIME else none
    .ok (writestr
      (zip_entry_from_file (statOfNode mt comps n) (contentsOfNode n)
        (pyJoin cfg.base arc) (some arcname) dt lt)
      cfg.compression)

/-- The inner `get_parent_dir`. -/
def get_parent_dir (path : String) : Option String :=
  let parent := normpath (dirname path)
  if parent ≠ "" ∧ parent ≠ "." then some parent else none

structure ZState where
  acc : List ZipEntry
  written_dirs : List String
deriving DecidableEq

/-- The recursive `maybe_write_parent_dirs` closure.  The recursion is
fuelled; for the well-formed arcnames a Chroot produces each parent is
strictly shorter than its child, so `length + 1` fuel always suffices, and
exhaustion (possible only for pathological all-slash inputs, on which the
original recursion would not terminate either) is reported as an error. -/
def maybe_write_parent_dirs (cfg : ZCfg) (det : Bool) (mt : List String → Nat)
    (lt : Nat → DT6) (fs : FSNode) : Nat → String → ZState → Except Nat ZState
  | 0, _, _ => .error 999
  | fuel + 1, path, st =>
    match get_parent_dir path with
    | none => .ok st
    | some parent =>
      if parent ∈ st.written_dirs then .ok st
      else
        match maybe_write_parent_dirs cfg det mt lt fs fuel parent st with
        | .error e => .error e
        | .ok st1 =>
          match (if cfg.stripPfx = some parent then Except.ok st1
                 else (write_entry cfg det mt lt fs (relComps parent) parent).map
                   (fun e => { st1 with acc := st1.acc ++ [e] })) with
          | .error e => .error e
          | .ok st2 => .ok { st2 with written_dirs := st2.written_dirs ++ [parent] }

/-- The main loop of `Chroot.zip`: for each yielded file, materialize its
parent directory entries, then write its own entry. -/
def zipLoop (cfg : ZCfg) (det : Bool) (mt : List String → Nat) (lt : Nat → DT6)
    (fs : FSNode) : List (List String × String) → ZState → Except Nat ZState
  | [], st => .ok st
  | (comps, arc) :: rest, st =>
    match maybe_write_parent_dirs cfg det mt lt fs (arc.length + 1) arc st with
    | .error e => .error e
    | .ok st1 =>
      match write_entry cfg det mt lt fs comps arc with
      | .error e => .error e
      | .ok e => zipLoop cfg det mt lt fs rest { st1 with acc := st1.acc ++ [e] }

/-- The selection step of `Chroot.zip`: `if labels:` is false for both `None`
and an empty collection, and then every tracked file is chosen; otherwise the
path sets of the given labels are unioned (`filesets.get(label, ())`). -/
def selectedFiles (fss : List (Label × List String)) : Option (List Label) → List String
  | some ls => if ls.isEmpty then chrootFiles fss else ls.flatMap (fsGet fss)
  | none => chrootFiles fss

/-- `Chroot.zip`: select, iterate in sorted order, write parent directory
entries, write file entries. -/
def zipModel (cfg : ZCfg) (det : Bool) (mt : List String → Nat) (lt : Nat → DT6)
    (fs : FSNode) (fss : List (Label × List String)) (labels : Option (List Label)) :
    Except Nat (List ZipEntry) :=
  match zipLoop cfg det mt lt fs (iterFiles cfg fs (selectedFiles fss labels)) ⟨[], []⟩ with
  | .error e => .error e
  | .ok st => .ok st.acc

/-- The chroot-relative paths whose bytes one zip call opens and reads:
exactly the files the iterator yields (directory entries are never opened;
`zip_entry_from_file` reads only regular files). -/
def readPaths (cfg : ZCfg) (fs : FSNode) (selected : List String) : List (List String) :=
  (iterFiles cfg fs selected).map (fun pr => pr.1)

/-- `PermPreservingZipFile._chmod`: the mode reapplied after extraction is
the upper 16 bits of the external attribute field. -/
def extract_chmod_mode (info : ZipInfo) : Nat := info.external_attr >>> 16

/-- `PermPreservingZipFile._extract_member`: the member is written out first,
then `_chmod` reapplies the packed permission bits; the pair is the extracted
content and the final mode of the extracted file. -/
def extract_member (e : ZipEntry) : List Nat × Nat :=
  (e.data, extract_chmod_mode e.info)

/-! ## Derived observations and helpers -/

instance {ε α : Type} [DecidableEq ε] [DecidableEq α] : DecidableEq (Except ε α)
  | .ok x, .ok y =>
    if h : x = y then .isTrue (by rw [h]) else .isFalse (by simp [h])
  | .error x, .error y =>
    if h : x = y then .isTrue (by rw [h]) else .isFalse (by simp [h])
  | .ok _, .error _ => .isFalse (by simp)
  | .error _, .ok _ => .isFalse (by simp)

/-- The archive member names a zip call emits, in order (empty on error). -/
def zipNamesModel (cfg : ZCfg) (det : Bool) (mt : List String → Nat) (lt : Nat → DT6)
    (fs : FSNode) (fss : List (Label × List String)) (labels : Option (List Label)) :
    List String :=
  match zipModel cfg det mt lt fs fss labels with
  | .ok es => es.map (fun e => e.info.filename)
  | .error _ => []

/-- Does the destination string contain a `..` path component? -/
def hasDotDotComp (s : String) : Bool :=
  ((splitOnSlash s.data).map String.mk).contains ".."

/-- Does the chroot tree hold a regular file at this relative path? -/
def isFileAt (fs : FSNode) (p : String) : Bool :=
  match lookupComps fs (relComps p) with
  | some (.file _ _) => true
  | _ => false

/-- The `st_mode` a fresh file has after `Chroot.write(..., executable=True)`:
created with mode `cm`, then `chmod_plus_x` stats it and chmods the computed
permission onto it. -/
def write_exec_mode (cm : Nat) : Nat := chmodApply cm (chmod_plus_x_perm cm)

/-- A well-formed path component: nonempty, not `.` or `..`, and without a
separator — what every real directory-entry name satisfies. -/
def validComp (c : List Char) : Bool :=
  !(c == []) && !(c == ['.']) && !(c == ['.', '.']) && !(c.contains '/')

def validCompStr (c : String) : Bool := validComp c.data

/-- A nonempty list of well-formed components — the normal form of the
relative paths a Chroot stores and serializes. -/
def NFComps (cs : List String) : Bool := !cs.isEmpty && cs.all validCompStr

/-- The relative path spelled by a component list. -/
def joinComps (cs : List String) : String := String.mk (joinSlash (cs.map String.data))

/-- The absolute path `/c1/c2/...` spelled by a component list. -/
def absOf (cs : List String) : String := String.mk ('/' :: joinSlash (cs.map String.data))

mutual
/-- Well-formedness of a directory tree: entry names are valid components and
unique within each directory. -/
def WFNode : FSNode → Bool
  | .file _ _ => true
  | .dir _ es => WFEntries es

def WFEntries : List (String × FSNode) → Bool
  | [] => true
  | (name, child) :: rest =>
    validCompStr name && WFNode child && !((rest.map Prod.fst).contains name) &&
    WFEntries rest
end

/-! ## Concrete fixtures used by witnesses and counterexamples -/

def mtZero : List String → Nat := fun _ => 0
def ltZero : Nat → DT6 := fun _ => (1970, 1, 1, 0, 0, 0)
def mtOne : List String → Nat := fun _ => 1234567
def ltOne : Nat → DT6 := fun _ => (2021, 6, 5, 4, 3, 2)

def cfgPlain : ZCfg :=
  { base := "/cr", cwd := "/w", stripPfx := none,
    exclude_file := fun _ => false, compression := ZIP_DEFLATED }

/-- The ordering example: files `b.txt`, `a.txt`, `dir/c.txt`. -/
def fsOrder : FSNode := .dir 0o40755
  [("b.txt", .file 0o100644 [98]), ("a.txt", .file 0o100644 [97]),
   ("dir", .dir 0o40755 [("c.txt", .file 0o100644 [99])])]

def fssOrder : List (Label × List String) :=
  [(some "src", ["b.txt", "a.txt", "dir/c.txt"])]

/-- A directory holding one file, for the exclusion counterexample. -/
def fsSecret : FSNode := .dir 0o40755
  [("d", .dir 0o40755 [("secret", .file 0o100644 [9])])]

def cfgSecretFullPath : ZCfg :=
  { cfgPlain with exclude_file := fun s => s == "/cr/d/secret" }

/-- A directory holding `secrets.txt` and `public.txt` side by side. -/
def fsSiblings : FSNode := .dir 0o40755
  [("d", .dir 0o40755
    [("secrets.txt", .file 0o100644 [1]), ("public.txt", .file 0o100644 [2])])]

def cfgSecretName : ZCfg :=
  { cfgPlain with exclude_file := fun s => s == "secrets.txt" }

/-- Top-level `secrets.txt` and `public.txt` (the spec's own example). -/
def fsTop : FSNode := .dir 0o40755
  [("secrets.txt", .file 0o100644 [1]), ("public.txt", .file 0o100644 [2])]

def cfgSecretTop : ZCfg :=
  { cfgPlain with exclude_file := fun s => s == "/cr/secrets.txt" }

def fssOne : List (Label × List String) := [(some "l", ["f.txt"])]

def fsOne : FSNode := .dir 0o40755 [("f.txt", .file 0o100644 [7])]

instance : Inhabited ZipEntry :=
  ⟨{ info := { filename := "", date_time := (0, 0, 0, 0, 0, 0), external_attr := 0,
               file_size := 0, compress_type := 0 }, data := [] }⟩

/-- `k`-fold iteration of `get_parent_dir`: the chain of proper ancestors of
an archive name. -/
def parentIterN : Nat → String → Option String
  | 0, p => some p
  | k + 1, p =>
    match get_parent_dir p with
    | none => none
    | some q => parentIterN k q

/-- The list of parents `maybe_write_parent_dirs` appends to the written set
for `path`, deepest ancestor first, given the already-written list `w` (the
guards throughout the descent consult the state the call starts from, because
the recursive call runs before any append).  `none` when the fuelled descent
gives out. -/
def chainOf (w : List String) : Nat → String → Option (List String)
  | 0, _ => none
  | fuel + 1, path =>
    match get_parent_dir path with
    | none => some []
    | some parent =>
      if parent ∈ w then some []
      else
        match chainOf w fuel parent with
        | none => none
        | some c => some (c ++ [parent])

/-- Every recorded directory's own parent is recorded too. -/
def ParentClosed (w : List String) : Prop :=
  ∀ p ∈ w, ∀ q, get_parent_dir p = some q → q ∈ w

/-- Two files sharing the nested ancestor `d/e`, below the strip root `d`. -/
def fsDeep : FSNode := .dir 0o40755
  [("d", .dir 0o40755 [("e", .dir 0o40755
    [("f.txt", .file 0o100644 [6]), ("g.txt", .file 0o100644 [7])])])]

def cfgStrip : ZCfg := { cfgPlain with stripPfx := some "d" }

def c8pairs : List (List String × String) :=
  [(["d", "e", "f.txt"], "d/e/f.txt"), (["d", "e", "g.txt"], "d/e/g.txt")]

def c8run : Except Nat ZState :=
  zipLoop cfgStrip true mtZero ltZero fsDeep c8pairs ⟨[], []⟩

def c8st : ZState := c8run.toOption.getD ⟨[], []⟩

/-! # Lemmas and claim theorems -/

/-! ### Sorting basics -/

theorem mem_insertAsc (a b : String) (l : List String) :
    b ∈ insertAsc a l ↔ b = a ∨ b ∈ l := by
  induction l with
  | nil => simp [insertAsc]
  | cons c cs ih =>
    unfold insertAsc
    by_cases h : strLt c a
    · rw [if_pos h]
      simp only [List.mem_cons, ih]
      tauto
    · rw [if_neg h]
      simp only [List.mem_cons]

theorem mem_pySorted (b : String) (l : List String) : b ∈ pySorted l ↔ b ∈ l := by
  induction l with
  | nil => simp [pySorted]
  | cons c cs ih =>
    show b ∈ insertAsc c (pySorted cs) ↔ _
    rw [mem_insertAsc, ih]
    simp

theorem mem_pySortedSet (b : String) (l : List String) : b ∈ pySortedSet l ↔ b ∈ l := by
  unfold pySortedSet
  rw [mem_pySorted, List.mem_dedup]

/-- C10: for every argument `safe_mkdir` returns the directory path and never
raises — the `finally:` block's `return directory` swallows even a non-EEXIST
`OSError` that the except-handler re-raised — so the OSError-to-Chroot.Error
wrapping in `Chroot.__init__` is unreachable and parent-directory creation in
the add-operations cannot fail.  The last conjunct shows the try/except part
alone would have re-raised a non-EEXIST error, so the swallowing is real. -/
theorem c10_safe_mkdir_never_raises :
    (∀ mkdirErr directory, safe_mkdir mkdirErr directory = .ok directory) ∧
    (∀ mkdirErr, chroot_init mkdirErr = .ok emptyChroot) ∧
    safe_mkdir_attempt (some ENOENT) = .error ENOENT := by
  have hmk : ∀ mkdirErr directory, safe_mkdir mkdirErr directory = .ok directory := by
    intro e d
    unfold safe_mkdir
    cases safe_mkdir_attempt e <;> rfl
  refine ⟨hmk, fun e => ?_, rfl⟩
  unfold chroot_init
  rw [hmk]

/-- C4: with hard-link support, `safe_copy` falls back from the link attempt
exactly as claimed: a destination-exists failure is a successful no-op unless
`overwrite`, in which case it copies; cross-device and permission failures
fall back to the copy; any other OS error propagates unchanged. -/
theorem c4_safe_copy_error_ladder :
    ∀ (fs : SimpleFS) (source dest : String) (overwrite : Bool) (e : Nat),
      (safe_copy true (.fails EEXIST) fs source dest false = .ok fs) ∧
      (safe_copy true (.fails EEXIST) fs source dest true = do_copy fs source dest) ∧
      (safe_copy true (.fails EPERM) fs source dest overwrite = do_copy fs source dest) ∧
      (safe_copy true (.fails EXDEV) fs source dest overwrite = do_copy fs source dest) ∧
      (e ≠ EEXIST → e ≠ EPERM → e ≠ EXDEV →
        safe_copy true (.fails e) fs source dest overwrite = .error e) := by
  intro fs source dest overwrite e
  refine ⟨rfl, rfl, rfl, rfl, fun h1 h2 h3 => ?_⟩
  simp only [safe_copy, if_true]
  rw [if_neg h1, if_neg ?_]
  exact not_or.mpr ⟨h2, h3⟩

/-- Witness for C4 at concrete inputs. -/
theorem c4_safe_copy_error_ladder_witness :
    safe_copy true (.fails 13) [("s", [1])] "s" "d" false = .error 13 :=
  (c4_safe_copy_error_ladder [("s", [1])] "s" "d" false 13).2.2.2.2
    (by decide) (by decide) (by decide)

/-! ### C2: deterministic serialization -/

theorem write_entry_det_irrel (cfg : ZCfg) (mt1 lt1 mt2 lt2) (fs : FSNode)
    (comps : List String) (arc : String) :
    write_entry cfg true mt1 lt1 fs comps arc =
    write_entry cfg true mt2 lt2 fs comps arc := by
  unfold write_entry
  cases lookupComps fs comps with
  | none => rfl
  | some n => cases n <;> rfl

theorem mwpd_det_irrel (cfg : ZCfg) (mt1 lt1 mt2 lt2) (fs : FSNode) :
    ∀ (fuel : Nat) (path : String) (st : ZState),
      maybe_write_parent_dirs cfg true mt1 lt1 fs fuel path st =
      maybe_write_parent_dirs cfg true mt2 lt2 fs fuel path st := by
  intro fuel
  induction fuel with
  | zero => intro path st; rfl
  | succ n ih =>
    intro path st
    unfold maybe_write_parent_dirs
    cases get_parent_dir path with
    | none => rfl
    | some parent =>
      simp only [ih, write_entry_det_irrel cfg mt1 lt1 mt2 lt2]

theorem zipLoop_det_irrel (cfg : ZCfg) (mt1 lt1 mt2 lt2) (fs : FSNode) :
    ∀ (prs : List (List String × String)) (st : ZState),
      zipLoop cfg true mt1 lt1 fs prs st = zipLoop cfg true mt2 lt2 fs prs st := by
  intro prs
  induction prs with
  | nil => intro st; rfl
  | cons pr rest ih =>
    intro st
    obtain ⟨comps, arc⟩ := pr
    unfold zipLoop
    rw [mwpd_det_irrel cfg mt1 lt1 mt2 lt2]
    cases maybe_write_parent_dirs cfg true mt2 lt2 fs (arc.length + 1) arc st with
    | error e => rfl
    | ok st1 =>
      rw [write_entry_det_irrel cfg mt1 lt1 mt2 lt2]
      cases write_entry cfg true mt2 lt2 fs comps arc with
      | error e => rfl
      | ok e => exact ih _

theorem write_entry_det_date (cfg : ZCfg) (mt lt) (fs : FSNode)
    (comps : List String) (arc : String) (e : ZipEntry) :
    write_entry cfg true mt lt fs comps arc = .ok e →
    e.info.date_time = DETERMINISTIC_DATETIME := by
  unfold write_entry
  cases lookupComps fs comps with
  | none => intro h; cases h
  | some n =>
    cases n with
    | file m d => intro h; cases h; rfl
    | dir m es => intro h; cases h; rfl

theorem mwpd_det_date (cfg : ZCfg) (mt lt) (fs : FSNode) :
    ∀ (fuel : Nat) (path : String) (st st' : ZState),
      maybe_write_parent_dirs cfg true mt lt fs fuel path st = .ok st' →
      (∀ e ∈ st.acc, e.info.date_time = DETERMINISTIC_DATETIME) →
      ∀ e ∈ st'.acc, e.info.date_time = DETERMINISTIC_DATETIME := by
  intro fuel
  induction fuel with
  | zero => intro path st st' h; cases h
  | succ n ih =>
    intro path st st' h hacc
    unfold maybe_write_parent_dirs at h
    cases hp : get_parent_dir path with
    | none => rw [hp] at h; cases h; exact hacc
    | some parent =>
      rw [hp] at h
      dsimp only at h
      by_cases hw : parent ∈ st.written_dirs
      · rw [if_pos hw] at h; cases h; exact hacc
      · rw [if_neg hw] at h
        cases hrec : maybe_write_parent_dirs cfg true mt lt fs n parent st with
        | error err => rw [hrec] at h; cases h
        | ok st1 =>
          rw [hrec] at h
          dsimp only at h
          have h1 := ih parent st st1 hrec hacc
          by_cases hsp : cfg.stripPfx = some parent
          · rw [if_pos hsp] at h
            cases h
            exact h1
          · rw [if_neg hsp] at h
            cases hwe : write_entry cfg true mt lt fs (relComps parent) parent with
            | error err => rw [hwe] at h; cases h
            | ok en =>
              rw [hwe] at h
              simp only [Except.map] at h
              cases h
              intro e he
              simp only [List.mem_append, List.mem_singleton] at he
              rcases he with he | rfl
              · exact h1 e he
              · exact write_entry_det_date cfg mt lt fs (relComps parent) parent e hwe

theorem zipLoop_det_date (cfg : ZCfg) (mt lt) (fs : FSNode) :
    ∀ (prs : List (List String × String)) (st st' : ZState),
      zipLoop cfg true mt lt fs prs st = .ok st' →
      (∀ e ∈ st.acc, e.info.date_time = DETERMINISTIC_DATETIME) →
      ∀ e ∈ st'.acc, e.info.date_time = DETERMINISTIC_DATETIME := by
  intro prs
  induction prs with
  | nil => intro st st' h hacc; cases h; exact hacc
  | cons pr rest ih =>
    intro st st' h hacc
    obtain ⟨comps, arc⟩ := pr
    unfold zipLoop at h
    cases hm : maybe_write_parent_dirs cfg true mt lt fs (arc.length + 1) arc st with
    | error err => rw [hm] at h; cases h
    | ok st1 =>
      rw [hm] at h
      have h1 := mwpd_det_date cfg mt lt fs _ arc st st1 hm hacc
      cases hwe : write_entry cfg true mt lt fs comps arc with
      | error err => rw [hwe] at h; cases h
      | ok en =>
        rw [hwe] at h
        refine ih _ st' h ?_
        intro e he
        simp only [List.mem_append, List.mem_singleton] at he
        rcases he with he | rfl
        · exact h1 e he
        · exact write_entry_det_date cfg mt lt fs comps arc e hwe

/-- C2: with `deterministic_timestamp=true` the archive records are a pure
function of the tree's names, modes and contents — the mtime oracle and the
`time.localtime` conversion can change arbitrarily between the two runs
without affecting a single emitted record — and every emitted entry carries
the fixed date-time `(1980, 1, 1, 0, 0, 0)`. -/
theorem c2_deterministic_zip :
    (∀ (cfg : ZCfg) (mt1 lt1 mt2 lt2) (fs : FSNode) fss labels,
      zipModel cfg true mt1 lt1 fs fss labels =
      zipModel cfg true mt2 lt2 fs fss labels) ∧
    (∀ (cfg : ZCfg) (mt lt) (fs : FSNode) fss labels es,
      zipModel cfg true mt lt fs fss labels = .ok es →
      ∀ e ∈ es, e.info.date_time = DETERMINISTIC_DATETIME) := by
  constructor
  · intro cfg mt1 lt1 mt2 lt2 fs fss labels
    unfold zipModel
    rw [zipLoop_det_irrel cfg mt1 lt1 mt2 lt2]
  · intro cfg mt lt fs fss labels es h
    unfold zipModel at h
    cases hl : zipLoop cfg true mt lt fs (iterFiles cfg fs (selectedFiles fss labels)) ⟨[], []⟩ with
    | error err => rw [hl] at h; cases h
    | ok st =>
      rw [hl] at h
      cases h
      exact zipLoop_det_date cfg mt lt fs _ _ st hl (by intro e he; cases he)

/-- Witness for C2: two runs over the ordering fixture with completely
different mtime and localtime oracles produce identical output, and the first
emitted entry of that output carries the fixed deterministic date-time. -/
theorem c2_deterministic_zip_witness :
    (zipModel cfgPlain true mtZero ltZero fsOrder fssOrder none =
     zipModel cfgPlain true mtOne ltOne fsOrder fssOrder none) ∧
    (((zipModel cfgPlain true mtZero ltZero fsOrder fssOrder none).toOption.getD
        []).headI.info.date_time = DETERMINISTIC_DATETIME) :=
  ⟨c2_deterministic_zip.1 cfgPlain mtZero ltZero mtOne ltOne fsOrder fssOrder none,
   c2_deterministic_zip.2 cfgPlain mtZero ltZero fsOrder fssOrder none
     ((zipModel cfgPlain true mtZero ltZero fsOrder fssOrder none).toOption.getD [])
     (by rfl) _ (by decide)⟩

/-! ### C7: label selection -/

theorem iterGroup_of_file (cfg : ZCfg) (fs : FSNode) (p : String)
    (hf : isFileAt fs p = true)
    (he : cfg.exclude_file (pyJoin cfg.base p) = false) :
    iterGroup cfg fs p = [(relComps p, p)] := by
  unfold isFileAt at hf
  unfold iterGroup
  dsimp only
  cases hl : lookupComps fs (relComps p) with
  | none => rw [hl] at hf; cases hf
  | some n =>
    rw [hl] at hf
    cases n with
    | file m d =>
      dsimp only
      rw [he]
      simp
    | dir m es => cases hf

theorem flatMap_file_groups (cfg : ZCfg) (fs : FSNode) :
    ∀ (l : List String), (∀ p ∈ l, iterGroup cfg fs p = [(relComps p, p)]) →
      (l.flatMap (iterGroup cfg fs)).map (fun pr => pr.2) = l := by
  intro l
  induction l with
  | nil => intro _; rfl
  | cons c cs ih =>
    intro h
    rw [List.flatMap_cons, List.map_append, h c (List.mem_cons_self c cs),
      ih (fun p hp => h p (List.mem_cons_of_mem c hp))]
    rfl

/-- C7 counterexample: calling zip with an *empty* labels collection does not
produce the empty union of path sets — `if labels:` treats it like the
labels-not-given case and serializes every tracked file. -/
theorem c7_empty_labels_cex :
    (([] : List Label).flatMap (fsGet fssOne) = []) ∧
    selectedFiles fssOne (some []) = ["f.txt"] ∧
    zipNamesModel cfgPlain true mtZero ltZero fsOne fssOne (some []) = ["f.txt"] :=
  ⟨rfl, rfl, by decide⟩

/-- C7 amended: with a *nonempty* labels collection the selected set is
exactly the union of those labels' path sets (absent labels contributing
nothing, via `filesets.get(label, ())`); with labels not given — or given but
empty — every tracked path is selected; and when every selected path is a
regular file and nothing is excluded, the files serialized are exactly the
selected set, in sorted order. -/
theorem c7_selection_amended :
    (∀ (fss : List (Label × List String)) (ls : List Label) (p : String), ls ≠ [] →
      (p ∈ selectedFiles fss (some ls) ↔ ∃ l ∈ ls, p ∈ fsGet fss l)) ∧
    (∀ (fss : List (Label × List String)) (p : String),
      (p ∈ selectedFiles fss none ↔ ∃ pr ∈ fss, p ∈ pr.2) ∧
      (p ∈ selectedFiles fss (some []) ↔ ∃ pr ∈ fss, p ∈ pr.2)) ∧
    (∀ (cfg : ZCfg) (fs : FSNode) (fss : List (Label × List String)) labels,
      (∀ p ∈ selectedFiles fss labels, isFileAt fs p = true) →
      (∀ p ∈ selectedFiles fss labels, cfg.exclude_file (pyJoin cfg.base p) = false) →
      (iterFiles cfg fs (selectedFiles fss labels)).map (fun pr => pr.2) =
        pySortedSet (selectedFiles fss labels)) := by
  refine ⟨?_, ?_, ?_⟩
  · intro fss ls p hls
    cases ls with
    | nil => exact absurd rfl hls
    | cons a as =>
      show p ∈ (a :: as).flatMap (fsGet fss) ↔ _
      exact List.mem_flatMap
  · intro fss p
    exact ⟨List.mem_flatMap, List.mem_flatMap⟩
  · intro cfg fs fss labels hfile hexcl
    unfold iterFiles
    apply flatMap_file_groups
    intro p hp
    have hp' := (mem_pySortedSet p _).mp hp
    exact iterGroup_of_file cfg fs p (hfile p hp') (hexcl p hp')

/-- Witness for C7: a nonempty labels list selects the tagged file, and the
clean-selection conjunct evaluated on the one-file fixture. -/
theorem c7_selection_amended_witness :
    ("f.txt" ∈ selectedFiles fssOne (some [some "l"])) ∧
    ((iterFiles cfgPlain fsOne (selectedFiles fssOne (some [some "l"]))).map
        (fun pr => pr.2) = pySortedSet (selectedFiles fssOne (some [some "l"]))) :=
  ⟨(c7_selection_amended.1 fssOne [some "l"] "f.txt" (by decide)).mpr
     ⟨some "l", by decide, by decide⟩,
   c7_selection_amended.2.2 cfgPlain fsOne fssOne (some [some "l"])
     (by decide) (by decide)⟩

/-! ### C3: destination validation -/

theorem startsWithCs_slash_iff (cs : List Char) :
    startsWithCs ['/'] cs = true ↔ cs.take 1 = ['/'] := by
  cases cs with
  | nil => simp [startsWithCs, List.isPrefixOf]
  | cons c cs' =>
    show (('/' == c) && List.isPrefixOf [] cs') = true ↔ List.take 1 (c :: cs') = ['/']
    simp only [List.isPrefixOf, Bool.and_true, beq_iff_eq, List.take_succ_cons,
      List.take_zero]
    constructor
    · intro h
      rw [← h]
    · intro h
      have h1 : c = '/' := by injection h
      rw [h1]

theorem normpath_keeps_slash (cs : List Char) (h : cs.take 1 = ['/']) :
    (normpathCs cs).take 1 = ['/'] := by
  have hne : cs ≠ [] := by
    intro hc; rw [hc] at h; cases h
  unfold normpathCs
  rw [if_neg hne]
  dsimp only
  unfold initialSlashes
  rw [if_pos h]
  by_cases h2 : cs.take 2 = ['/', '/'] ∧ ¬ cs.take 3 = ['/', '/', '/']
  · rw [if_pos h2]
    simp only [List.replicate_succ, List.replicate_zero, List.cons_append,
      List.nil_append]
    rw [if_neg (List.cons_ne_nil _ _)]
    rfl
  · rw [if_neg h2]
    simp only [List.replicate_succ, List.replicate_zero, List.cons_append,
      List.nil_append]
    rw [if_neg (List.cons_ne_nil _ _)]
    rfl

theorem normalize_error_of_reject (dst : String)
    (h : (startsWithCs ['/'] (normpath dst).data ||
          startsWithCs ['.', '.'] (normpath dst).data) = true) :
    normalize dst = .error .notRelative := by
  unfold normalize
  dsimp only
  rw [h]
  rfl

theorem applyOp_of_normalize_error (cm : Nat) (s : ChrootState) (op : Op)
    (e : ChrootErr) (h : normalize op.dst = .error e) :
    applyOp cm s op = (s, some e) := by
  unfold applyOp
  rw [h]

/-- C3 counterexample: `a/../b` contains a `..` component, but `_normalize`
resolves it (`normpath` turns it into `b`), so the touch succeeds and
registers `b` in the unlabelled fileset rather than being rejected. -/
theorem c3_dotdot_cex :
    hasDotDotComp "a/../b" = true ∧
    (applyOp 0o100644 emptyChroot (.touch "a/../b" none)).2 = none ∧
    "b" ∈ fsGet (applyOp 0o100644 emptyChroot (.touch "a/../b" none)).1.filesets none :=
  ⟨by decide, by decide, by decide⟩

/-- C3 amended: an operation is rejected — with the state returned untouched,
so before any registration or filesystem mutation — exactly when the
*normalized* destination starts with a separator or with `..`; in particular
every destination that starts with a separator is rejected (normalization
preserves a leading slash), and so is every destination whose `..` components
do not resolve away inside the root, while `..` components that resolve
within the root are accepted in normalized form. -/
theorem c3_path_rejection_amended :
    (∀ (cm : Nat) (s : ChrootState) (op : Op),
      startsWithCs ['/'] op.dst.data = true →
      applyOp cm s op = (s, some .notRelative)) ∧
    (∀ (cm : Nat) (s : ChrootState) (op : Op),
      (startsWithCs ['/'] (normpath op.dst).data ||
       startsWithCs ['.', '.'] (normpath op.dst).data) = true →
      applyOp cm s op = (s, some .notRelative)) := by
  have main : ∀ (cm : Nat) (s : ChrootState) (op : Op),
      (startsWithCs ['/'] (normpath op.dst).data ||
       startsWithCs ['.', '.'] (normpath op.dst).data) = true →
      applyOp cm s op = (s, some .notRelative) := by
    intro cm s op h
    exact applyOp_of_normalize_error cm s op _ (normalize_error_of_reject _ h)
  refine ⟨?_, main⟩
  intro cm s op h
  apply main
  have h1 : (op.dst.data).take 1 = ['/'] := (startsWithCs_slash_iff _).mp h
  have h2 : (normpath op.dst).data.take 1 = ['/'] := normpath_keeps_slash _ h1
  rw [(startsWithCs_slash_iff _).mpr h2]
  rfl

/-- Witness for C3 amended: a leading-slash destination and an escaping `..`
destination are both rejected with the state unchanged. -/
theorem c3_path_rejection_amended_witness :
    applyOp 0o100644 emptyChroot (.touch "/abs" none) = (emptyChroot, some .notRelative) ∧
    applyOp 0o100644 emptyChroot (.touch "../x" none) = (emptyChroot, some .notRelative) :=
  ⟨c3_path_rejection_amended.1 0o100644 emptyChroot (.touch "/abs" none) (by decide),
   c3_path_rejection_amended.2 0o100644 emptyChroot (.touch "../x" none) (by decide)⟩

/-! ### C1: fileset tagging -/

theorem check_tag_ok_iff (fn : String) (label : Label) :
    ∀ fss, check_tag fss fn label = .ok () ↔ ∀ pr ∈ fss, fn ∈ pr.2 → pr.1 = label := by
  intro fss
  induction fss with
  | nil => simp [check_tag]
  | cons pr rest ih =>
    obtain ⟨l, fsp⟩ := pr
    unfold check_tag
    by_cases h : fn ∈ fsp ∧ l ≠ label
    · rw [if_pos h]
      constructor
      · intro hc; cases hc
      · intro hall
        exact absurd (hall (l, fsp) (List.mem_cons_self _ _) h.1) h.2
    · rw [if_neg h]
      rw [ih]
      push_neg at h
      simp only [List.forall_mem_cons]
      constructor
      · intro hrest
        exact ⟨h, hrest⟩
      · intro hb
        exact hb.2

theorem check_tag_conflict (fn : String) (A B : Label) (hAB : A ≠ B) :
    ∀ fss, (∃ pr ∈ fss, fn ∈ pr.2) →
      (∀ pr ∈ fss, fn ∈ pr.2 → pr.1 = A) →
      check_tag fss fn B = .error (.taggingConflict fn A B) := by
  intro fss
  induction fss with
  | nil =>
    intro hex _
    obtain ⟨pr, hm, _⟩ := hex
    cases hm
  | cons pr rest ih =>
    intro hex hall
    obtain ⟨l, fsp⟩ := pr
    unfold check_tag
    by_cases h : fn ∈ fsp ∧ l ≠ B
    · rw [if_pos h]
      have hl : l = A := hall (l, fsp) (List.mem_cons_self _ _) h.1
      rw [hl]
    · rw [if_neg h]
      apply ih
      · rcases hex with ⟨q, hq, hfn⟩
        rcases List.mem_cons.mp hq with rfl | hq'
        · refine absurd ⟨hfn, ?_⟩ h
          have hla : l = A := hall (l, fsp) (List.mem_cons_self _ _) hfn
          rw [hla]
          exact hAB
        · exact ⟨q, hq', hfn⟩
      · intro q hq hfn
        exact hall q (List.mem_cons_of_mem _ hq) hfn

theorem fsGet_nil (l : Label) : fsGet [] l = [] := rfl

theorem fsGet_cons_self (l : Label) (fsp : List String) (rest : List (Label × List String)) :
    fsGet ((l, fsp) :: rest) l = fsp := by
  unfold fsGet
  rw [List.find?_cons_of_pos _ (by simp)]

theorem fsGet_cons_ne (l l' : Label) (fsp : List String)
    (rest : List (Label × List String)) (h : l ≠ l') :
    fsGet ((l, fsp) :: rest) l' = fsGet rest l' := by
  unfold fsGet
  rw [List.find?_cons_of_neg _ (by simp [h])]

theorem mem_listInsert_self (fs : List String) (fn : String) : fn ∈ listInsert fs fn := by
  unfold listInsert
  by_cases h : fn ∈ fs
  · rw [if_pos h]; exact h
  · rw [if_neg h]
    exact List.mem_append.mpr (.inr (List.mem_singleton.mpr rfl))

theorem mem_listInsert (fs : List String) (fn p : String) :
    p ∈ listInsert fs fn ↔ p ∈ fs ∨ p = fn := by
  unfold listInsert
  by_cases h : fn ∈ fs
  · rw [if_pos h]
    constructor
    · exact .inl
    · intro hp
      rcases hp with hp | rfl
      · exact hp
      · exact h
  · rw [if_neg h]
    simp [List.mem_append]

theorem fsGet_fsAdd_self (label : Label) (fn : String) :
    ∀ fss, fsGet (fsAdd fss label fn) label = listInsert (fsGet fss label) fn := by
  intro fss
  induction fss with
  | nil =>
    rw [show fsAdd [] label fn = [(label, [fn])] from rfl, fsGet_cons_self]
    rfl
  | cons pr rest ih =>
    obtain ⟨l, fsp⟩ := pr
    unfold fsAdd
    by_cases h : l = label
    · rw [if_pos h]
      subst h
      rw [fsGet_cons_self, fsGet_cons_self]
    · rw [if_neg h]
      rw [fsGet_cons_ne _ _ _ _ h, fsGet_cons_ne _ _ _ _ h, ih]

theorem fsGet_fsAdd_ne (label l' : Label) (fn : String) (h : l' ≠ label) :
    ∀ fss, fsGet (fsAdd fss label fn) l' = fsGet fss l' := by
  intro fss
  induction fss with
  | nil =>
    rw [show fsAdd [] label fn = [(label, [fn])] from rfl,
      fsGet_cons_ne _ _ _ _ (fun hh => h hh.symm)]
  | cons pr rest ih =>
    obtain ⟨l, fsp⟩ := pr
    unfold fsAdd
    by_cases hl : l = label
    · rw [if_pos hl]
      subst hl
      rw [fsGet_cons_ne _ _ _ _ (fun hh => h hh.symm),
        fsGet_cons_ne _ _ _ _ (fun hh => h hh.symm)]
    · rw [if_neg hl]
      by_cases he : l = l'
      · subst he
        rw [fsGet_cons_self, fsGet_cons_self]
      · rw [fsGet_cons_ne _ _ _ _ he, fsGet_cons_ne _ _ _ _ he, ih]

theorem fsGet_sub (fss : List (Label × List String)) (l : Label) (p : String)
    (h : p ∈ fsGet fss l) : ∃ pr ∈ fss, pr.1 = l ∧ p ∈ pr.2 := by
  unfold fsGet at h
  cases hf : fss.find? (fun e => e.1 == l) with
  | none => rw [hf] at h; cases h
  | some pr =>
    rw [hf] at h
    refine ⟨pr, List.mem_of_find?_eq_some hf, ?_, h⟩
    have := List.find?_some hf
    exact beq_iff_eq.mp this

theorem fsAdd_pairs (label : Label) (fn : String) :
    ∀ fss pr, pr ∈ fsAdd fss label fn → fn ∈ pr.2 →
      pr.1 = label ∨ (pr ∈ fss ∧ fn ∈ pr.2) := by
  intro fss
  induction fss with
  | nil =>
    intro pr hpr _
    rcases List.mem_singleton.mp hpr with rfl
    exact .inl rfl
  | cons q rest ih =>
    intro pr hpr hfn
    obtain ⟨l, fsp⟩ := q
    unfold fsAdd at hpr
    by_cases h : l = label
    · rw [if_pos h] at hpr
      rcases List.mem_cons.mp hpr with rfl | hpr'
      · exact .inl h
      · exact .inr ⟨List.mem_cons_of_mem _ hpr', hfn⟩
    · rw [if_neg h] at hpr
      rcases List.mem_cons.mp hpr with rfl | hpr'
      · exact .inr ⟨List.mem_cons_self _ _, hfn⟩
      · rcases ih pr hpr' hfn with h1 | ⟨h2, h3⟩
        · exact .inl h1
        · exact .inr ⟨List.mem_cons_of_mem _ h2, h3⟩

theorem applyOp_filesets (cm : Nat) (s : ChrootState) (op : Op) :
    (applyOp cm s op).1.filesets = s.filesets ∨
    ∃ d, normalize op.dst = .ok d ∧ check_tag s.filesets d op.label = .ok () ∧
      (applyOp cm s op).1.filesets = fsAdd s.filesets op.label d := by
  unfold applyOp
  cases hn : normalize op.dst with
  | error e => left; rfl
  | ok d =>
    unfold tag
    dsimp only
    cases hc : check_tag s.filesets d op.label with
    | error e =>
      left
      rfl
    | ok u =>
      right
      cases u
      refine ⟨d, rfl, hc, ?_⟩
      cases op with
      | copy m data dst l => rfl
      | link m data dst l =>
        dsimp only
        cases diskGet s.disk d <;> rfl
      | symlink src dst l =>
        dsimp only
        cases diskGet s.disk d <;> rfl
      | write data dst l ex => rfl
      | touch dst l =>
        dsimp only
        cases diskGet s.disk d <;> rfl

theorem applyOp_success_parts (cm : Nat) (s : ChrootState) (op : Op) (s1 : ChrootState)
    (h : applyOp cm s op = (s1, none)) :
    ∃ d, normalize op.dst = .ok d ∧ check_tag s.filesets d op.label = .ok () ∧
      s1.filesets = fsAdd s.filesets op.label d ∧ d ∈ fsGet s1.filesets op.label := by
  unfold applyOp at h
  cases hn : normalize op.dst with
  | error e =>
    rw [hn] at h
    dsimp only at h
    injection h with h1 h2
    cases h2
  | ok d =>
    rw [hn] at h
    dsimp only at h
    unfold tag at h
    cases hc : check_tag s.filesets d op.label with
    | error e =>
      rw [hc] at h
      dsimp only at h
      injection h with h1 h2
      cases h2
    | ok u =>
      rw [hc] at h
      cases u
      dsimp only at h
      refine ⟨d, rfl, hc, ?_⟩
      have hfs : s1.filesets = fsAdd s.filesets op.label d → d ∈ fsGet s1.filesets op.label := by
        intro he
        rw [he, fsGet_fsAdd_self]
        exact mem_listInsert_self _ _
      have goal : s1.filesets = fsAdd s.filesets op.label d := by
        cases op with
        | copy m data dst l =>
          injection h with h1 h2
          rw [← h1]
        | link m data dst l =>
          cases hd : diskGet s.disk d <;> rw [hd] at h <;> injection h with h1 h2 <;> rw [← h1]
        | symlink src dst l =>
          cases hd : diskGet s.disk d with
          | some e =>
            rw [hd] at h
            injection h with h1 h2
            cases h2
          | none =>
            rw [hd] at h
            injection h with h1 h2
            rw [← h1]
        | write data dst l ex =>
          injection h with h1 h2
          rw [← h1]
        | touch dst l =>
          cases hd : diskGet s.disk d <;> rw [hd] at h <;> injection h with h1 h2 <;> rw [← h1]
      exact ⟨goal, hfs goal⟩

theorem tagInvariant_fsAdd (fss : List (Label × List String)) (label : Label) (fn : String)
    (hinv : ∀ p l1 l2, p ∈ fsGet fss l1 → p ∈ fsGet fss l2 → l1 = l2)
    (hok : check_tag fss fn label = .ok ()) :
    ∀ p l1 l2, p ∈ fsGet (fsAdd fss label fn) l1 → p ∈ fsGet (fsAdd fss label fn) l2 →
      l1 = l2 := by
  have honly : ∀ l, fn ∈ fsGet fss l → l = label := by
    intro l hm
    obtain ⟨pr, hpr, hl, hmem⟩ := fsGet_sub fss l fn hm
    exact hl ▸ (check_tag_ok_iff fn label fss).mp hok pr hpr hmem
  have key : ∀ p l, p ∈ fsGet (fsAdd fss label fn) l →
      p ∈ fsGet fss l ∨ (p = fn ∧ l = label) := by
    intro p l hm
    by_cases hl : l = label
    · subst hl
      rw [fsGet_fsAdd_self] at hm
      rcases (mem_listInsert _ _ _).mp hm with hm' | rfl
      · exact .inl hm'
      · exact .inr ⟨rfl, rfl⟩
    · rw [fsGet_fsAdd_ne _ _ _ hl] at hm
      exact .inl hm
  intro p l1 l2 h1 h2
  rcases key p l1 h1 with h1' | ⟨hp1, hl1⟩
  · rcases key p l2 h2 with h2' | ⟨hp2, hl2⟩
    · exact hinv p l1 l2 h1' h2'
    · rw [hl2]
      apply honly
      rw [← hp2]
      exact h1'
  · rcases key p l2 h2 with h2' | ⟨hp2, hl2⟩
    · rw [hl1]
      symm
      apply honly
      rw [← hp1]
      exact h2'
    · rw [hl1, hl2]

theorem applyOp_TagInvariant (cm : Nat) (s : ChrootState) (op : Op)
    (h : TagInvariant s) : TagInvariant (applyOp cm s op).1 := by
  rcases applyOp_filesets cm s op with hsame | ⟨d, hn, hok, heq⟩
  · unfold TagInvariant at h ⊢
    rw [hsame]
    exact h
  · unfold TagInvariant at h ⊢
    rw [heq]
    exact tagInvariant_fsAdd s.filesets op.label d h hok

theorem runOps_TagInvariant (cm : Nat) :
    ∀ (ops : List Op) (s : ChrootState), TagInvariant s → TagInvariant (runOps cm s ops) := by
  intro ops
  induction ops with
  | nil => intro s h; exact h
  | cons op rest ih =>
    intro s h
    exact ih _ (applyOp_TagInvariant cm s op h)

theorem tagInvariant_empty : TagInvariant emptyChroot := by
  intro p l1 l2 h1 _
  cases h1

/-- C1 counterexample: adding the same path twice under the same label does
*not* succeed for `symlink` — the tag re-add is fine, but the second
`os.symlink` call raises a file-exists `OSError` (the destination was
materialized by the first add). -/
theorem c1_symlink_twice_cex :
    (applyOp 0o100644 emptyChroot (Op.symlink "t" "p" none)).2 = none ∧
    (applyOp 0o100644 (applyOp 0o100644 emptyChroot (Op.symlink "t" "p" none)).1
      (Op.symlink "t" "p" none)).2 = some (.osError EEXIST) :=
  ⟨by decide, by decide⟩

/-- C1 amended: after a successful add of `p` under one label, adding `p`
under a different label raises exactly the tagging conflict naming the path
and both labels; re-adding under the same label never raises a tagging
conflict, and succeeds outright for `copy`, `link`, `write`, and `touch` —
but `symlink` fails with the underlying EEXIST `OSError` from `os.symlink`
(see the counterexample).  Whatever sequence of operations runs, with or
without errors, every stored relative path stays in at most one fileset. -/
theorem c1_tagging_amended :
    (∀ (cm : Nat) (s : ChrootState) (op1 op2 : Op) (s1 : ChrootState),
      op2.dst = op1.dst → op2.label ≠ op1.label →
      applyOp cm s op1 = (s1, none) →
      ∃ d, normalize op1.dst = .ok d ∧
        (applyOp cm s1 op2).2 = some (.taggingConflict d op1.label op2.label)) ∧
    (∀ (cm : Nat) (s : ChrootState) (op1 op2 : Op) (s1 : ChrootState),
      op2.dst = op1.dst → op2.label = op1.label →
      applyOp cm s op1 = (s1, none) →
      (∀ fn o nn, (applyOp cm s1 op2).2 ≠ some (.taggingConflict fn o nn)) ∧
      (op2.isSymlinkOp = false → (applyOp cm s1 op2).2 = none)) ∧
    TagInvariant emptyChroot ∧
    (∀ (cm : Nat) (s : ChrootState) (ops : List Op),
      TagInvariant s → TagInvariant (runOps cm s ops)) := by
  refine ⟨?_, ?_, tagInvariant_empty, fun cm s ops h => runOps_TagInvariant cm ops s h⟩
  · intro cm s op1 op2 s1 hd hl h
    obtain ⟨d, hn, hok, hfs, hmem⟩ := applyOp_success_parts cm s op1 s1 h
    refine ⟨d, hn, ?_⟩
    have hn2 : normalize op2.dst = .ok d := by rw [hd]; exact hn
    have hconf : check_tag s1.filesets d op2.label =
        .error (.taggingConflict d op1.label op2.label) := by
      apply check_tag_conflict d op1.label op2.label (fun hh => hl hh.symm)
      · obtain ⟨pr, hpr, _, hprm⟩ := fsGet_sub s1.filesets op1.label d hmem
        exact ⟨pr, hpr, hprm⟩
      · rw [hfs]
        intro pr hpr hm
        rcases fsAdd_pairs op1.label d s.filesets pr hpr hm with h1 | ⟨h2, h3⟩
        · exact h1
        · exact (check_tag_ok_iff d op1.label s.filesets).mp hok pr h2 h3
    unfold applyOp
    rw [hn2]
    dsimp only
    unfold tag
    rw [hconf]
  · intro cm s op1 op2 s1 hd hl h
    obtain ⟨d, hn, hok, hfs, hmem⟩ := applyOp_success_parts cm s op1 s1 h
    have hn2 : normalize op2.dst = .ok d := by rw [hd]; exact hn
    have hok2 : check_tag s1.filesets d op2.label = .ok () := by
      rw [hl]
      apply (check_tag_ok_iff d op1.label s1.filesets).mpr
      rw [hfs]
      intro pr hpr hm
      rcases fsAdd_pairs op1.label d s.filesets pr hpr hm with h1 | ⟨h2, h3⟩
      · exact h1
      · exact (check_tag_ok_iff d op1.label s.filesets).mp hok pr h2 h3
    constructor
    · intro fn o nn
      unfold applyOp
      rw [hn2]
      dsimp only
      unfold tag
      rw [hok2]
      dsimp only
      cases op2 with
      | copy m data dst l => simp
      | link m data dst l =>
        cases diskGet _ d <;> simp
      | symlink src dst l =>
        cases diskGet _ d <;> simp
      | write data dst l ex => simp
      | touch dst l =>
        cases diskGet _ d <;> simp
    · intro hsym
      unfold applyOp
      rw [hn2]
      dsimp only
      unfold tag
      rw [hok2]
      dsimp only
      cases op2 with
      | copy m data dst l => rfl
      | link m data dst l =>
        cases diskGet _ d <;> rfl
      | symlink src dst l => cases hsym
      | write data dst l ex => rfl
      | touch dst l =>
        cases diskGet _ d <;> rfl

/-- Witness for C1 amended: `touch p` under label A, then under B, conflicts
naming `(p, A, B)`; re-touching under A succeeds; and the invariant holds
after running the one-operation sequence. -/
theorem c1_tagging_amended_witness :
    ((applyOp 0 (applyOp 0 emptyChroot (Op.touch "p" (some "A"))).1
       (Op.touch "p" (some "B"))).2 =
      some (.taggingConflict "p" (some "A") (some "B"))) ∧
    ((applyOp 0 (applyOp 0 emptyChroot (Op.touch "p" (some "A"))).1
       (Op.touch "p" (some "A"))).2 = none) ∧
    TagInvariant (runOps 0 emptyChroot [Op.touch "p" (some "A")]) := by
  refine ⟨?_, ?_, ?_⟩
  · obtain ⟨d, hd, hc⟩ := c1_tagging_amended.1 0 emptyChroot (Op.touch "p" (some "A"))
      (Op.touch "p" (some "B")) ((applyOp 0 emptyChroot (Op.touch "p" (some "A"))).1)
      rfl (by decide) (by decide)
    have h2 : normalize (Op.touch "p" (some "A")).dst = .ok "p" := by decide
    rw [hd] at h2
    injection h2 with h3
    rw [h3] at hc
    exact hc
  · exact (c1_tagging_amended.2.1 0 emptyChroot (Op.touch "p" (some "A"))
      (Op.touch "p" (some "A")) ((applyOp 0 emptyChroot (Op.touch "p" (some "A"))).1)
      rfl rfl (by decide)).2 (by decide)
  · exact c1_tagging_amended.2.2.2 0 emptyChroot [Op.touch "p" (some "A")]
      c1_tagging_amended.2.2.1

/-! ### C9: executable bit round-trip -/

theorem testBit_or_left (x y i : Nat) (h : x.testBit i = true) :
    (x ||| y).testBit i = true := by
  rw [Nat.testBit_lor, h, Bool.true_or]

theorem testBit_ite_or (P : Prop) [Decidable P] (x k i : Nat) (h : x.testBit i = true) :
    (if P then x ||| k else x).testBit i = true := by
  by_cases hp : P
  · rw [if_pos hp]
    exact testBit_or_left x k i h
  · rw [if_neg hp]
    exact h

theorem and_exec_ne_zero (x : Nat) (h : x.testBit 6 = true) : x &&& 0o100 ≠ 0 := by
  have h64 : (0o100 : Nat) = 2 ^ 6 := by norm_num
  rw [h64, Nat.and_two_pow, h]
  simp

theorem chmod_plus_x_perm_exec (cm : Nat) (h : cm &&& 0o400 ≠ 0) :
    (chmod_plus_x_perm cm).testBit 6 = true := by
  unfold chmod_plus_x_perm
  dsimp only
  have h0 : (cm &&& 0o777) &&& 0o400 ≠ 0 := by
    rw [Nat.and_assoc, (by decide : (0o777 &&& 0o400 : Nat) = 0o400)]
    exact h
  rw [if_pos h0]
  have h1 : ((cm &&& 0o777) ||| 0o100).testBit 6 = true := by
    rw [Nat.testBit_lor, (by decide : (0o100 : Nat).testBit 6 = true), Bool.or_true]
  exact testBit_ite_or _ _ 0o1 6 (testBit_ite_or _ _ 0o10 6 h1)

theorem chmodApply_exec (full perm : Nat) (h : perm.testBit 6 = true) :
    (chmodApply full perm).testBit 6 = true := by
  unfold chmodApply
  rw [Nat.testBit_lor, Nat.testBit_land, Nat.testBit_land, h,
    (by decide : (0o170000 : Nat).testBit 6 = false),
    (by decide : (0o7777 : Nat).testBit 6 = true)]
  simp

theorem write_exec_mode_testBit (cm : Nat) (h : cm &&& 0o400 ≠ 0) :
    (write_exec_mode cm).testBit 6 = true :=
  chmodApply_exec cm (chmod_plus_x_perm cm) (chmod_plus_x_perm_exec cm h)

theorem and_mask_testBit (x : Nat) (h : x.testBit 6 = true) :
    (x &&& 0xFFFF).testBit 6 = true := by
  rw [Nat.testBit_land, h, (by decide : (0xFFFF : Nat).testBit 6 = true)]
  rfl

theorem shiftLeft_shiftRight_16 (x : Nat) : (x <<< 16) >>> 16 = x := by
  rw [Nat.shiftLeft_eq, Nat.shiftRight_eq_div_pow]
  exact Nat.mul_div_cancel x (by norm_num)

theorem diskGet_diskSet_self (p : String) (v : DiskEntry) :
    ∀ disk, diskGet (diskSet disk p v) p = some v := by
  intro disk
  induction disk with
  | nil => simp [diskSet, diskGet, List.find?]
  | cons e rest ih =>
    obtain ⟨q, w⟩ := e
    unfold diskSet
    by_cases h : q = p
    · rw [if_pos h]
      subst h
      unfold diskGet
      rw [List.find?_cons_of_pos _ (by simp)]
    · rw [if_neg h]
      unfold diskGet
      rw [List.find?_cons_of_neg _ (by simp [h])]
      exact ih

theorem applyOp_write_exec (cm : Nat) (s : ChrootState) (data : List Nat) (dst : String)
    (lbl : Label) (s1 : ChrootState) (d : String)
    (h : applyOp cm s (.write data dst lbl true) = (s1, none))
    (hn : normalize dst = .ok d)
    (hfresh : diskGet s.disk d = none) :
    diskGet s1.disk d = some (.file (write_exec_mode cm) data) := by
  unfold applyOp at h
  simp only [Op.dst, Op.label] at h
  rw [hn] at h
  dsimp only at h
  unfold tag at h
  cases hc : check_tag s.filesets d lbl with
  | error e =>
    rw [hc] at h
    dsimp only at h
    injection h with h1 h2
    cases h2
  | ok u =>
    cases u
    rw [hc] at h
    dsimp only at h
    rw [hfresh] at h
    dsimp only at h
    injection h with h1 h2
    rw [← h1]
    exact diskGet_diskSet_self d _ s.disk

/-- C9: a file written into the Chroot with `executable=true` onto a fresh
destination ends up on disk with the owner-execute bit set (given the created
file was owner-readable); its zip entry packs exactly the file's mode bits
into the upper 16 bits of the external attribute; `writestr` preserves that
field; and the permission-preserving extractor's chmod reapplies exactly
those bits, so the extracted copy is owner-executable and carries the
original bytes. -/
theorem c9_executable_roundtrip :
    ∀ (cm : Nat) (s : ChrootState) (data : List Nat) (dst : String) (lbl : Label)
      (s1 : ChrootState) (d : String) (mtime : Nat) (fn arcn : String)
      (dt : Option DT6) (lt : Nat → DT6) (comp : Nat),
      cm &&& 0o400 ≠ 0 →
      applyOp cm s (.write data dst lbl true) = (s1, none) →
      normalize dst = .ok d →
      diskGet s.disk d = none →
      diskGet s1.disk d = some (.file (write_exec_mode cm) data) ∧
      write_exec_mode cm &&& 0o100 ≠ 0 ∧
      (writestr (zip_entry_from_file
          ⟨write_exec_mode cm, false, data.length, mtime⟩ data fn (some arcn) dt lt)
        comp).info.external_attr = (write_exec_mode cm &&& 0xFFFF) <<< 16 ∧
      extract_chmod_mode (writestr (zip_entry_from_file
          ⟨write_exec_mode cm, false, data.length, mtime⟩ data fn (some arcn) dt lt)
        comp).info = write_exec_mode cm &&& 0xFFFF ∧
      (extract_member (writestr (zip_entry_from_file
          ⟨write_exec_mode cm, false, data.length, mtime⟩ data fn (some arcn) dt lt)
        comp)).1 = data ∧
      (extract_member (writestr (zip_entry_from_file
          ⟨write_exec_mode cm, false, data.length, mtime⟩ data fn (some arcn) dt lt)
        comp)).2 &&& 0o100 ≠ 0 := by
  intro cm s data dst lbl s1 d mtime fn arcn dt lt comp hr h hn hfresh
  have hbit : (write_exec_mode cm).testBit 6 = true := write_exec_mode_testBit cm hr
  have hattr : (writestr (zip_entry_from_file
      ⟨write_exec_mode cm, false, data.length, mtime⟩ data fn (some arcn) dt lt)
      comp).info.external_attr = (write_exec_mode cm &&& 0xFFFF) <<< 16 := rfl
  refine ⟨applyOp_write_exec cm s data dst lbl s1 d h hn hfresh,
    and_exec_ne_zero _ hbit, hattr, ?_, rfl, ?_⟩
  · show ((write_exec_mode cm &&& 0xFFFF) <<< 16) >>> 16 = write_exec_mode cm &&& 0xFFFF
    exact shiftLeft_shiftRight_16 _
  · show ((write_exec_mode cm &&& 0xFFFF) <<< 16) >>> 16 &&& 0o100 ≠ 0
    rw [shiftLeft_shiftRight_16]
    exact and_exec_ne_zero _ (and_mask_testBit _ hbit)

/-- Witness for C9 at a concrete creation mode and write. -/
theorem c9_executable_roundtrip_witness :
    diskGet (applyOp 0o100644 emptyChroot (.write [1] "x" none true)).1.disk "x" =
      some (.file (write_exec_mode 0o100644) [1]) ∧
    write_exec_mode 0o100644 &&& 0o100 ≠ 0 ∧
    (writestr (zip_entry_from_file
        ⟨write_exec_mode 0o100644, false, [1].length, 0⟩ [1] "/cr/x" (some "x") none ltZero)
      ZIP_DEFLATED).info.external_attr = (write_exec_mode 0o100644 &&& 0xFFFF) <<< 16 ∧
    extract_chmod_mode (writestr (zip_entry_from_file
        ⟨write_exec_mode 0o100644, false, [1].length, 0⟩ [1] "/cr/x" (some "x") none ltZero)
      ZIP_DEFLATED).info = write_exec_mode 0o100644 &&& 0xFFFF ∧
    (extract_member (writestr (zip_entry_from_file
        ⟨write_exec_mode 0o100644, false, [1].length, 0⟩ [1] "/cr/x" (some "x") none ltZero)
      ZIP_DEFLATED)).1 = [1] ∧
    (extract_member (writestr (zip_entry_from_file
        ⟨write_exec_mode 0o100644, false, [1].length, 0⟩ [1] "/cr/x" (some "x") none ltZero)
      ZIP_DEFLATED)).2 &&& 0o100 ≠ 0 :=
  c9_executable_roundtrip 0o100644 emptyChroot [1] "x" none
    (applyOp 0o100644 emptyChroot (.write [1] "x" none true)).1 "x" 0 "/cr/x" "x"
    none ltZero ZIP_DEFLATED (by decide) (by decide) (by decide) (by decide)

/-! ### Path normal forms: split/join/normpath/dirname lemmas -/

theorem validComp_props (c : List Char) (h : validComp c = true) :
    c ≠ [] ∧ c ≠ ['.'] ∧ c ≠ ['.', '.'] ∧ '/' ∉ c := by
  unfold validComp at h
  simp only [Bool.and_eq_true, Bool.not_eq_true', beq_eq_false_iff_ne] at h
  refine ⟨h.1.1.1, h.1.1.2, h.1.2, ?_⟩
  simpa using h.2

theorem splitOnSlash_ne_nil (cs : List Char) : splitOnSlash cs ≠ [] := by
  cases cs with
  | nil => simp [splitOnSlash]
  | cons c rest =>
    unfold splitOnSlash
    by_cases h : c = '/'
    · rw [if_pos h]
      simp
    · rw [if_neg h]
      cases splitOnSlash rest <;> simp

theorem splitOnSlash_noslash (cs : List Char) (h : '/' ∉ cs) :
    splitOnSlash cs = [cs] := by
  induction cs with
  | nil => rfl
  | cons c rest ih =>
    have hc : ¬ c = '/' := by
      intro hc
      exact h (hc ▸ List.mem_cons_self c rest)
    have ht : '/' ∉ rest := fun hm => h (List.mem_cons_of_mem c hm)
    unfold splitOnSlash
    rw [if_neg hc, ih ht]

theorem splitOnSlash_cons_slash (rest : List Char) :
    splitOnSlash ('/' :: rest) = [] :: splitOnSlash rest := by
  simp [splitOnSlash]

theorem splitOnSlash_cons_ne (c : Char) (rest : List Char) (h : ¬ c = '/')
    (p : List Char) (ps : List (List Char)) (hs : splitOnSlash rest = p :: ps) :
    splitOnSlash (c :: rest) = (c :: p) :: ps := by
  unfold splitOnSlash
  rw [if_neg h, hs]

theorem splitOnSlash_append (a b : List Char) :
    splitOnSlash (a ++ '/' :: b) = splitOnSlash a ++ splitOnSlash b := by
  induction a with
  | nil =>
    rw [List.nil_append, splitOnSlash_cons_slash]
    rfl
  | cons c a' ih =>
    by_cases h : c = '/'
    · subst h
      rw [List.cons_append, splitOnSlash_cons_slash, splitOnSlash_cons_slash, ih,
        List.cons_append]
    · obtain ⟨p, ps, hs⟩ : ∃ p ps, splitOnSlash a' = p :: ps := by
        cases hsa : splitOnSlash a' with
        | nil => exact absurd hsa (splitOnSlash_ne_nil a')
        | cons p ps => exact ⟨p, ps, rfl⟩
      have hs2 : splitOnSlash (a' ++ '/' :: b) = p :: (ps ++ splitOnSlash b) := by
        rw [ih, hs, List.cons_append]
      rw [List.cons_append, splitOnSlash_cons_ne c _ h _ _ hs2,
        splitOnSlash_cons_ne c a' h _ _ hs, List.cons_append]

theorem joinSlash_cons (p : List Char) (ps : List (List Char)) (h : ps ≠ []) :
    joinSlash (p :: ps) = p ++ '/' :: joinSlash ps := by
  cases ps with
  | nil => exact absurd rfl h
  | cons q qs => rfl

theorem split_join_valid :
    ∀ ps : List (List Char), ps ≠ [] → (∀ p ∈ ps, '/' ∉ p) →
      splitOnSlash (joinSlash ps) = ps := by
  intro ps
  induction ps with
  | nil => intro h; exact absurd rfl h
  | cons p qs ih =>
    intro _ hval
    cases qs with
    | nil => exact splitOnSlash_noslash p (hval p (List.mem_cons_self _ _))
    | cons q qs' =>
      rw [joinSlash_cons p _ (by simp), splitOnSlash_append,
        splitOnSlash_noslash p (hval p (List.mem_cons_self _ _)),
        ih (by simp) (fun r hr => hval r (List.mem_cons_of_mem _ hr))]
      rfl

theorem joinSlash_append (ps qs : List (List Char)) (hp : ps ≠ []) (hq : qs ≠ []) :
    joinSlash (ps ++ qs) = joinSlash ps ++ '/' :: joinSlash qs := by
  induction ps with
  | nil => exact absurd rfl hp
  | cons p ps' ih =>
    cases ps' with
    | nil =>
      rw [List.singleton_append, joinSlash_cons p qs hq]
      rfl
    | cons r rs =>
      rw [List.cons_append, joinSlash_cons p ((r :: rs) ++ qs) (by simp),
        ih (by simp), joinSlash_cons p (r :: rs) (by simp)]
      simp

theorem joinSlash_take_one (p : List Char) (ps : List (List Char)) (h : p ≠ []) :
    (joinSlash (p :: ps)).take 1 = p.take 1 := by
  cases ps with
  | nil => rfl
  | cons q qs =>
    rw [joinSlash_cons p _ (by simp)]
    exact List.take_append_of_le_length (by cases p <;> simp_all)

theorem joinSlash_ne_nil (p : List Char) (ps : List (List Char)) (h : p ≠ []) :
    joinSlash (p :: ps) ≠ [] := by
  cases ps with
  | nil => exact h
  | cons q qs =>
    rw [joinSlash_cons p _ (by simp)]
    cases p with
    | nil => exact absurd rfl h
    | cons c cs => simp

theorem normPartsStep_valid (isl : Nat) (acc : List (List Char)) (comp : List Char)
    (h1 : comp ≠ []) (h2 : comp ≠ ['.']) (h3 : comp ≠ ['.', '.']) :
    normPartsStep isl acc comp = acc ++ [comp] := by
  unfold normPartsStep
  rw [if_neg (by simp [h1, h2]), if_pos (.inl h3)]

theorem normParts_all_valid (isl : Nat) :
    ∀ (ps : List (List Char)) (acc : List (List Char)),
      (∀ p ∈ ps, p ≠ [] ∧ p ≠ ['.'] ∧ p ≠ ['.', '.']) →
      List.foldl (normPartsStep isl) acc ps = acc ++ ps := by
  intro ps
  induction ps with
  | nil => intro acc _; simp
  | cons p qs ih =>
    intro acc h
    obtain ⟨h1, h2, h3⟩ := h p (List.mem_cons_self _ _)
    rw [List.foldl_cons, normPartsStep_valid isl acc p h1 h2 h3,
      ih _ (fun r hr => h r (List.mem_cons_of_mem _ hr))]
    simp

theorem take_one_ne_slash (p : List Char) (hne : p ≠ []) (hns : '/' ∉ p) :
    p.take 1 ≠ ['/'] := by
  cases p with
  | nil => exact absurd rfl hne
  | cons c cs =>
    intro h
    simp only [List.take_succ_cons, List.take_zero] at h
    have : c = '/' := by injection h
    exact hns (this ▸ List.mem_cons_self c cs)

theorem normpathCs_nf (ps : List (List Char)) (hne : ps ≠ [])
    (hval : ∀ p ∈ ps, validComp p = true) :
    normpathCs (joinSlash ps) = joinSlash ps := by
  obtain ⟨p, qs, rfl⟩ : ∃ p qs, ps = p :: qs := by
    cases ps with
    | nil => exact absurd rfl hne
    | cons p qs => exact ⟨p, qs, rfl⟩
  have hp := validComp_props p (hval p (List.mem_cons_self _ _))
  have hj : joinSlash (p :: qs) ≠ [] := joinSlash_ne_nil p qs hp.1
  unfold normpathCs
  rw [if_neg hj]
  dsimp only
  have hisl : initialSlashes (joinSlash (p :: qs)) = 0 := by
    unfold initialSlashes
    rw [if_neg]
    rw [joinSlash_take_one p qs hp.1]
    exact take_one_ne_slash p hp.1 hp.2.2.2
  rw [hisl]
  rw [split_join_valid (p :: qs) (by simp)
    (fun r hr => (validComp_props r (hval r hr)).2.2.2)]
  unfold normParts
  rw [normParts_all_valid 0 (p :: qs) []
    (fun r hr => ⟨(validComp_props r (hval r hr)).1, (validComp_props r (hval r hr)).2.1,
      (validComp_props r (hval r hr)).2.2.1⟩)]
  rw [List.nil_append, List.replicate_zero, List.nil_append, if_neg hj]

theorem takeThroughLastSlash_noslash (cs : List Char) (h : '/' ∉ cs) :
    takeThroughLastSlash cs = [] := by
  induction cs with
  | nil => rfl
  | cons c rest ih =>
    unfold takeThroughLastSlash
    rw [ih (fun hm => h (List.mem_cons_of_mem c hm))]
    dsimp only
    rw [if_neg (fun hc => h (by rw [← hc]; exact List.mem_cons_self c rest))]

theorem takeThroughLastSlash_append (a b : List Char) (h : '/' ∉ b) :
    takeThroughLastSlash (a ++ '/' :: b) = a ++ ['/'] := by
  induction a with
  | nil =>
    show takeThroughLastSlash ('/' :: b) = ['/']
    unfold takeThroughLastSlash
    rw [takeThroughLastSlash_noslash b h]
    dsimp only
    rw [if_pos rfl]
  | cons c a' ih =>
    show takeThroughLastSlash (c :: (a' ++ '/' :: b)) = c :: (a' ++ ['/'])
    unfold takeThroughLastSlash
    rw [ih]
    cases h2 : a' ++ ['/'] with
    | nil => exact absurd h2 (by simp)
    | cons x xs => rfl

theorem rstripSlash_append_slash (x : List Char) :
    rstripSlashCs (x ++ ['/']) = rstripSlashCs x := by
  unfold rstripSlashCs
  rw [List.reverse_append]
  rw [show (['/'] : List Char).reverse ++ x.reverse = '/' :: x.reverse from by simp]
  rw [List.dropWhile_cons_of_pos (by simp)]

theorem rstripSlash_no_trailing (x : List Char) (h : x.getLast? ≠ some '/') :
    rstripSlashCs x = x := by
  unfold rstripSlashCs
  cases hx : x.reverse with
  | nil =>
    have : x = [] := by simpa using congrArg List.reverse hx
    rw [this]
    rfl
  | cons c cr =>
    have hc : ¬ c = '/' := by
      intro hc
      apply h
      rw [← List.head?_reverse, hx, hc]
      rfl
    rw [List.dropWhile_cons_of_neg (by simp [hc]), ← hx, List.reverse_reverse]

theorem joinSlash_getLast_ne_slash (ps : List (List Char)) (hne : ps ≠ [])
    (hval : ∀ p ∈ ps, validComp p = true) :
    (joinSlash ps).getLast? ≠ some '/' := by
  induction ps with
  | nil => exact absurd rfl hne
  | cons p qs ih =>
    have hp := validComp_props p (hval p (List.mem_cons_self _ _))
    cases qs with
    | nil =>
      show p.getLast? ≠ some '/'
      intro hl
      exact hp.2.2.2 (List.mem_of_getLast?_eq_some hl)
    | cons q qs' =>
      rw [joinSlash_cons p _ (by simp)]
      have hq := validComp_props q (hval q (List.mem_cons_of_mem _ (List.mem_cons_self _ _)))
      have hjq : joinSlash (q :: qs') ≠ [] := joinSlash_ne_nil q qs' hq.1
      have hassoc : p ++ '/' :: joinSlash (q :: qs') =
          (p ++ ['/']) ++ joinSlash (q :: qs') := by simp
      rw [hassoc, List.getLast?_append_of_ne_nil _ hjq]
      exact ih (by simp) (fun r hr => hval r (List.mem_cons_of_mem _ hr))

theorem dirnameCs_noslash (c : List Char) (h : '/' ∉ c) : dirnameCs c = [] := by
  unfold dirnameCs
  rw [takeThroughLastSlash_noslash c h]
  dsimp only
  rw [if_neg (by simp)]

theorem dirnameCs_append (ps : List (List Char)) (c : List Char)
    (hps : ps ≠ []) (hval : ∀ p ∈ ps, validComp p = true) (hc : '/' ∉ c) :
    dirnameCs (joinSlash (ps ++ [c])) = joinSlash ps := by
  rw [joinSlash_append ps [c] hps (by simp)]
  show dirnameCs (joinSlash ps ++ '/' :: c) = joinSlash ps
  unfold dirnameCs
  rw [takeThroughLastSlash_append _ c hc]
  dsimp only
  obtain ⟨p, qs, rfl⟩ : ∃ p rest, ps = p :: rest := by
    cases ps with
    | nil => exact absurd rfl hps
    | cons p rest => exact ⟨p, rest, rfl⟩
  have hp := validComp_props p (hval p (List.mem_cons_self _ _))
  have hjoin_take : (joinSlash (p :: qs)).take 1 = p.take 1 := joinSlash_take_one p qs hp.1
  have hjoin_ne : joinSlash (p :: qs) ≠ [] := joinSlash_ne_nil p qs hp.1
  have hnotall : ¬ (joinSlash (p :: qs) ++ ['/']) =
      List.replicate (joinSlash (p :: qs) ++ ['/']).length '/' := by
    intro heq
    have h1 : (joinSlash (p :: qs) ++ ['/']).take 1 = (joinSlash (p :: qs)).take 1 :=
      List.take_append_of_le_length (Nat.one_le_iff_ne_zero.mpr
        (by simpa using hjoin_ne))
    rw [heq] at h1
    have hlen : 1 ≤ (joinSlash (p :: qs) ++ ['/']).length := by simp
    have h2 : (List.replicate (joinSlash (p :: qs) ++ ['/']).length '/').take 1 =
        ['/'] := by
      cases hn : (joinSlash (p :: qs) ++ ['/']).length with
      | zero => rw [hn] at hlen; cases hlen
      | succ n => simp [List.replicate_succ]
    rw [h2, hjoin_take] at h1
    exact take_one_ne_slash p hp.1 hp.2.2.2 h1.symm
  rw [if_pos ⟨by simp, hnotall⟩, rstripSlash_append_slash,
    rstripSlash_no_trailing _ (joinSlash_getLast_ne_slash (p :: qs) (by simp) hval)]

/-! ### String-level normal-form bridges -/

theorem NFComps_props (cs : List String) (h : NFComps cs = true) :
    cs ≠ [] ∧ ∀ c ∈ cs, validComp c.data = true := by
  unfold NFComps at h
  simp only [Bool.and_eq_true, List.all_eq_true] at h
  refine ⟨?_, fun c hc => h.2 c hc⟩
  intro heq
  rw [heq] at h
  simp at h

theorem map_data_valid (cs : List String) (h : NFComps cs = true) :
    ∀ p ∈ cs.map String.data, validComp p = true := by
  intro p hp
  obtain ⟨c, hc, rfl⟩ := List.mem_map.mp hp
  exact (NFComps_props cs h).2 c hc

theorem map_data_ne_nil (cs : List String) (h : cs ≠ []) : cs.map String.data ≠ [] := by
  simpa using h

theorem normpath_joinComps (cs : List String) (h : NFComps cs = true) :
    normpath (joinComps cs) = joinComps cs := by
  obtain ⟨hne, _⟩ := NFComps_props cs h
  exact congrArg String.mk (normpathCs_nf (cs.map String.data)
    (map_data_ne_nil cs hne) (map_data_valid cs h))

theorem mk_data_id (s : String) : String.mk s.data = s := rfl

theorem relComps_joinComps (cs : List String) (h : NFComps cs = true) :
    relComps (joinComps cs) = cs := by
  obtain ⟨hne, _⟩ := NFComps_props cs h
  unfold relComps
  rw [show (joinComps cs).data = joinSlash (cs.map String.data) from rfl]
  rw [split_join_valid (cs.map String.data) (map_data_ne_nil cs hne)
    (fun p hp => (validComp_props p (map_data_valid cs h p hp)).2.2.2)]
  rw [List.map_map, show (String.mk ∘ String.data) = id from funext (fun s => rfl),
    List.map_id]
  rw [List.filter_eq_self.mpr ?_]
  intro c hc
  have hp := validComp_props c.data ((NFComps_props cs h).2 c hc)
  have h1 : (c == "") = false := beq_eq_false_iff_ne.mpr (fun he => hp.1 (by rw [he]))
  have h2 : (c == ".") = false := beq_eq_false_iff_ne.mpr (fun he => hp.2.1 (by rw [he]))
  rw [h1, h2]
  rfl

theorem ne_of_data_ne (s t : String) (h : s.data ≠ t.data) : s ≠ t :=
  fun he => h (congrArg String.data he)

theorem joinComps_ne_empty (cs : List String) (h : NFComps cs = true) :
    joinComps cs ≠ "" := by
  obtain ⟨hne, _⟩ := NFComps_props cs h
  obtain ⟨c0, cs', rfl⟩ : ∃ c0 cs', cs = c0 :: cs' := by
    cases cs with
    | nil => exact absurd rfl hne
    | cons c0 cs' => exact ⟨c0, cs', rfl⟩
  apply ne_of_data_ne
  show joinSlash ((c0 :: cs').map String.data) ≠ []
  exact joinSlash_ne_nil c0.data _
    (validComp_props c0.data ((NFComps_props _ h).2 c0 (by simp))).1

theorem joinComps_ne_dot (cs : List String) (h : NFComps cs = true) :
    joinComps cs ≠ "." := by
  obtain ⟨hne, hval⟩ := NFComps_props cs h
  apply ne_of_data_ne
  show joinSlash (cs.map String.data) ≠ ['.']
  cases cs with
  | nil => exact absurd rfl hne
  | cons c0 cs' =>
    cases cs' with
    | nil =>
      show c0.data ≠ ['.']
      exact (validComp_props c0.data (hval c0 (by simp))).2.1
    | cons c1 cs'' =>
      intro heq
      have h0 := validComp_props c0.data (hval c0 (by simp))
      have hlen2 : 2 ≤ (joinSlash ((c0 :: c1 :: cs'').map String.data)).length := by
        rw [show ((c0 :: c1 :: cs'').map String.data) =
          c0.data :: c1.data :: cs''.map String.data from rfl,
          joinSlash_cons c0.data _ (by simp)]
        have hp0 : 0 < c0.data.length := List.length_pos.mpr h0.1
        simp only [List.length_append, List.length_cons]
        omega
      rw [heq] at hlen2
      simp at hlen2

theorem get_parent_dir_nf (cs : List String) (c : String)
    (h : NFComps (cs ++ [c]) = true) :
    get_parent_dir (joinComps (cs ++ [c])) =
      if cs = [] then none else some (joinComps cs) := by
  obtain ⟨_, hval⟩ := NFComps_props _ h
  have hc := validComp_props c.data (hval c (by simp))
  unfold get_parent_dir
  cases cs with
  | nil =>
    simp only [List.nil_append]
    have hd : dirname (joinComps [c]) = "" := by
      exact congrArg String.mk (dirnameCs_noslash c.data hc.2.2.2)
    rw [hd]
    rw [show normpath "" = "." from rfl]
    rw [if_neg (by simp)]
    simp
  | cons c0 cs' =>
    have hNF : NFComps (c0 :: cs') = true := by
      unfold NFComps
      rw [Bool.and_eq_true]
      exact ⟨by simp, List.all_eq_true.mpr
        (fun x hx => hval x (List.mem_append_left _ hx))⟩
    have hd : dirname (joinComps ((c0 :: cs') ++ [c])) = joinComps (c0 :: cs') := by
      apply congrArg String.mk
      show dirnameCs (joinSlash (((c0 :: cs') ++ [c]).map String.data)) = _
      rw [List.map_append]
      exact dirnameCs_append ((c0 :: cs').map String.data) c.data (by simp)
        (map_data_valid _ hNF) hc.2.2.2
    rw [hd, normpath_joinComps _ hNF]
    dsimp only
    rw [if_pos ⟨joinComps_ne_empty _ hNF, joinComps_ne_dot _ hNF⟩,
      if_neg (by simp)]

/-! ### `os.path.join`, `abspath` and `relpath` on normal forms -/

theorem joinComps_take_one_ne_slash (cs : List String) (h : NFComps cs = true) :
    (joinComps cs).data.take 1 ≠ ['/'] := by
  obtain ⟨hne, hval⟩ := NFComps_props cs h
  obtain ⟨c0, cs', rfl⟩ : ∃ c0 cs', cs = c0 :: cs' := by
    cases cs with
    | nil => exact absurd rfl hne
    | cons c0 cs' => exact ⟨c0, cs', rfl⟩
  have h0 := validComp_props c0.data (hval c0 (by simp))
  show (joinSlash (c0.data :: cs'.map String.data)).take 1 ≠ ['/']
  rw [joinSlash_take_one c0.data _ h0.1]
  exact take_one_ne_slash c0.data h0.1 h0.2.2.2

theorem pyJoin_joinComps (as bs : List String) (hbs : NFComps bs = true)
    (has : as = [] ∨ NFComps as = true) :
    pyJoin (joinComps as) (joinComps bs) = joinComps (as ++ bs) := by
  obtain ⟨hbne, _⟩ := NFComps_props bs hbs
  unfold pyJoin pyJoinCs
  rw [if_neg (joinComps_take_one_ne_slash bs hbs)]
  rcases has with rfl | hasNF
  · rw [if_pos (.inl rfl)]
    rfl
  · obtain ⟨hane, _⟩ := NFComps_props as hasNF
    have hlast : (joinComps as).data.getLast? ≠ some '/' :=
      joinSlash_getLast_ne_slash (as.map String.data) (map_data_ne_nil as hane)
        (map_data_valid as hasNF)
    have hdata_ne : ¬ ((joinComps as).data = [] ∨
        (joinComps as).data.getLast? = some '/') := by
      refine not_or.mpr ⟨?_, hlast⟩
      show joinSlash (as.map String.data) ≠ []
      obtain ⟨a0, as', rfl⟩ : ∃ a0 as', as = a0 :: as' := by
        cases as with
        | nil => exact absurd rfl hane
        | cons a0 as' => exact ⟨a0, as', rfl⟩
      exact joinSlash_ne_nil a0.data _
        (validComp_props a0.data (map_data_valid _ hasNF a0.data (by simp))).1
    rw [if_neg hdata_ne]
    refine congrArg String.mk ?_
    show (joinComps as).data ++ '/' :: (joinComps bs).data =
      joinSlash ((as ++ bs).map String.data)
    rw [List.map_append,
      joinSlash_append _ _ (map_data_ne_nil as hane) (map_data_ne_nil bs hbne)]
    rfl

theorem pyJoin_absOf (as bs : List String) (hbs : NFComps bs = true)
    (haval : ∀ a ∈ as, validCompStr a = true) :
    pyJoin (absOf as) (joinComps bs) = absOf (as ++ bs) := by
  obtain ⟨hbne, _⟩ := NFComps_props bs hbs
  unfold pyJoin pyJoinCs
  rw [if_neg (joinComps_take_one_ne_slash bs hbs)]
  cases as with
  | nil =>
    rw [if_pos (.inr rfl)]
    rfl
  | cons a0 as' =>
    have h0 := validComp_props a0.data (haval a0 (by simp))
    have hjoin_ne : joinSlash ((a0 :: as').map String.data) ≠ [] :=
      joinSlash_ne_nil a0.data _ h0.1
    have hlast : (absOf (a0 :: as')).data.getLast? ≠ some '/' := by
      show ('/' :: joinSlash ((a0 :: as').map String.data)).getLast? ≠ some '/'
      rw [show ('/' :: joinSlash ((a0 :: as').map String.data)) =
        ['/'] ++ joinSlash ((a0 :: as').map String.data) from rfl,
        List.getLast?_append_of_ne_nil _ hjoin_ne]
      exact joinSlash_getLast_ne_slash _ (by simp)
        (map_data_valid _ (by
          unfold NFComps
          rw [Bool.and_eq_true]
          exact ⟨by simp, List.all_eq_true.mpr haval⟩))
    rw [if_neg (not_or.mpr ⟨by simp [absOf], hlast⟩)]
    refine congrArg String.mk ?_
    show ('/' :: joinSlash ((a0 :: as').map String.data)) ++ '/' :: (joinComps bs).data =
      '/' :: joinSlash (((a0 :: as') ++ bs).map String.data)
    rw [List.map_append,
      joinSlash_append _ _ (by simp) (map_data_ne_nil bs hbne)]
    rfl

theorem normpathCs_abs (as : List String) (hval : ∀ a ∈ as, validCompStr a = true) :
    normpathCs ('/' :: joinSlash (as.map String.data)) =
      '/' :: joinSlash (as.map String.data) := by
  cases as with
  | nil => decide
  | cons a0 as' =>
    have h0 := validComp_props a0.data (hval a0 (by simp))
    have hNF : NFComps (a0 :: as') = true := by
      unfold NFComps
      rw [Bool.and_eq_true]
      exact ⟨by simp, List.all_eq_true.mpr hval⟩
    unfold normpathCs
    rw [if_neg (by simp)]
    dsimp only
    have htake : (joinSlash ((a0 :: as').map String.data)).take 1 ≠ ['/'] := by
      rw [List.map_cons, joinSlash_take_one a0.data _ h0.1]
      exact take_one_ne_slash a0.data h0.1 h0.2.2.2
    have hisl : initialSlashes ('/' :: joinSlash ((a0 :: as').map String.data)) = 1 := by
      unfold initialSlashes
      rw [if_pos (by simp)]
      rw [if_neg ?_]
      intro hcontra
      apply htake
      have h2 : ('/' :: joinSlash ((a0 :: as').map String.data)).take 2 =
          '/' :: (joinSlash ((a0 :: as').map String.data)).take 1 := by
        simp [List.take_succ_cons]
      rw [h2] at hcontra
      injection hcontra.1 with _ h3
    rw [hisl, splitOnSlash_cons_slash,
      split_join_valid ((a0 :: as').map String.data) (by simp)
        (fun p hp => (validComp_props p (map_data_valid _ hNF p hp)).2.2.2)]
    unfold normParts
    rw [List.foldl_cons, show normPartsStep 1 [] [] = [] from rfl,
      normParts_all_valid 1 ((a0 :: as').map String.data) []
        (fun r hr => by
          have := validComp_props r (map_data_valid _ hNF r hr)
          exact ⟨this.1, this.2.1, this.2.2.1⟩),
      List.nil_append]
    rw [show List.replicate 1 '/' ++ joinSlash ((a0 :: as').map String.data) =
      '/' :: joinSlash ((a0 :: as').map String.data) from by simp [List.replicate]]
    rw [if_neg (by simp)]

theorem splitFilter_abs (as : List String) (hval : ∀ a ∈ as, validCompStr a = true) :
    (splitOnSlash ('/' :: joinSlash (as.map String.data))).filter
      (fun c => ¬ c = []) = as.map String.data := by
  rw [splitOnSlash_cons_slash]
  cases as with
  | nil => decide
  | cons a0 as' =>
    have hNF : NFComps (a0 :: as') = true := by
      unfold NFComps
      rw [Bool.and_eq_true]
      exact ⟨by simp, List.all_eq_true.mpr hval⟩
    rw [split_join_valid ((a0 :: as').map String.data) (by simp)
      (fun p hp => (validComp_props p (map_data_valid _ hNF p hp)).2.2.2)]
    rw [List.filter_cons_of_neg (by simp)]
    rw [List.filter_eq_self.mpr ?_]
    intro p hp
    have := validComp_props p (map_data_valid _ hNF p hp)
    simpa using this.1

theorem abspathComps_absOf (cwd : List Char) (as : List String)
    (hval : ∀ a ∈ as, validCompStr a = true) :
    abspathComps cwd (absOf as).data = as.map String.data := by
  unfold abspathComps
  rw [if_pos (by simp [absOf])]
  rw [show (absOf as).data = '/' :: joinSlash (as.map String.data) from rfl,
    normpathCs_abs as hval]
  exact splitFilter_abs as hval

theorem pyJoinCs_absOf_rel (ws ds : List String) (hw : ∀ a ∈ ws, validCompStr a = true)
    (hds : NFComps ds = true) :
    pyJoinCs (absOf ws).data (joinComps ds).data = (absOf (ws ++ ds)).data :=
  congrArg String.data (pyJoin_absOf ws ds hds hw)

theorem abspathComps_rel (ws ds : List String) (hw : ∀ a ∈ ws, validCompStr a = true)
    (hds : NFComps ds = true) :
    abspathComps (absOf ws).data (joinComps ds).data = (ws ++ ds).map String.data := by
  unfold abspathComps
  rw [if_neg (joinComps_take_one_ne_slash ds hds), pyJoinCs_absOf_rel ws ds hw hds]
  rw [show (absOf (ws ++ ds)).data = '/' :: joinSlash ((ws ++ ds).map String.data)
    from rfl]
  have hval2 : ∀ a ∈ ws ++ ds, validCompStr a = true := by
    intro a ha
    rcases List.mem_append.mp ha with h1 | h2
    · exact hw a h1
    · exact (NFComps_props ds hds).2 a h2
  rw [normpathCs_abs (ws ++ ds) hval2]
  exact splitFilter_abs (ws ++ ds) hval2

theorem commonPrefixLen_cons_self (x : List Char) (xs ys : List (List Char)) :
    commonPrefixLen (x :: xs) (x :: ys) = commonPrefixLen xs ys + 1 := by
  conv_lhs => unfold commonPrefixLen
  rw [if_pos rfl]

theorem commonPrefixLen_append_self (xs ys : List (List Char)) :
    commonPrefixLen xs (xs ++ ys) = xs.length := by
  induction xs with
  | nil => rfl
  | cons a as ih =>
    rw [List.cons_append, commonPrefixLen_cons_self, ih]
    rfl

theorem commonPrefixLen_append_both (ws : List (List Char)) (a b : List (List Char)) :
    commonPrefixLen (ws ++ a) (ws ++ b) = ws.length + commonPrefixLen a b := by
  induction ws with
  | nil => simp
  | cons w ws' ih =>
    rw [List.cons_append, List.cons_append, commonPrefixLen_cons_self, ih]
    simp only [List.length_cons]
    omega

theorem commonPrefixLen_le_left (a b : List (List Char)) :
    commonPrefixLen a b ≤ a.length := by
  induction a generalizing b with
  | nil => cases b <;> simp [commonPrefixLen]
  | cons x xs ih =>
    cases b with
    | nil => simp [commonPrefixLen]
    | cons y ys =>
      unfold commonPrefixLen
      by_cases h : x = y
      · rw [if_pos h]
        simp only [List.length_cons]
        exact Nat.succ_le_succ (ih ys)
      · rw [if_neg h]
        simp

theorem commonPrefixLen_le_right (a b : List (List Char)) :
    commonPrefixLen a b ≤ b.length := by
  induction a generalizing b with
  | nil => cases b <;> simp [commonPrefixLen]
  | cons x xs ih =>
    cases b with
    | nil => simp [commonPrefixLen]
    | cons y ys =>
      unfold commonPrefixLen
      by_cases h : x = y
      · rw [if_pos h]
        simp only [List.length_cons]
        exact Nat.succ_le_succ (ih ys)
      · rw [if_neg h]
        simp

theorem commonPrefixLen_full (a b : List (List Char))
    (h1 : commonPrefixLen a b = a.length) (h2 : b.length ≤ a.length) : a = b := by
  induction a generalizing b with
  | nil =>
    cases b with
    | nil => rfl
    | cons y ys => simp at h2
  | cons x xs ih =>
    cases b with
    | nil => simp [commonPrefixLen] at h1
    | cons y ys =>
      unfold commonPrefixLen at h1
      by_cases h : x = y
      · rw [if_pos h] at h1
        subst h
        simp only [List.length_cons] at h1 h2
        rw [ih ys (by omega) (by omega)]
      · rw [if_neg h] at h1
        simp at h1

theorem relpathStr_abs (cwd : String) (as bs : List String)
    (haval : ∀ a ∈ as, validCompStr a = true) (hbs : NFComps bs = true) :
    relpathStr cwd (absOf (as ++ bs)) (absOf as) = joinComps bs := by
  obtain ⟨hbne, _⟩ := NFComps_props bs hbs
  have hval2 : ∀ a ∈ as ++ bs, validCompStr a = true := by
    intro a ha
    rcases List.mem_append.mp ha with h1 | h2
    · exact haval a h1
    · exact (NFComps_props bs hbs).2 a h2
  unfold relpathStr relpathCs
  rw [abspathComps_absOf cwd.data (as ++ bs) hval2, abspathComps_absOf cwd.data as haval]
  dsimp only
  rw [List.map_append, commonPrefixLen_append_self]
  rw [Nat.sub_self, List.replicate_zero, List.nil_append, List.drop_left]
  rw [if_neg (map_data_ne_nil bs hbne)]
  rfl

theorem joinSlash_ne_dot_pieces (rel : List (List Char)) (hne : rel ≠ [])
    (hval : ∀ r ∈ rel, r ≠ [] ∧ r ≠ ['.']) : joinSlash rel ≠ ['.'] := by
  cases rel with
  | nil => exact absurd rfl hne
  | cons r rest =>
    cases rest with
    | nil => exact (hval r (by simp)).2
    | cons r2 rest' =>
      intro heq
      have hr := hval r (by simp)
      have hlen2 : 2 ≤ (joinSlash (r :: r2 :: rest')).length := by
        rw [joinSlash_cons r _ (by simp)]
        have hpos : 0 < r.length := List.length_pos.mpr hr.1
        simp only [List.length_append, List.length_cons]
        omega
      rw [heq] at hlen2
      simp at hlen2

theorem relpathStr_rel_ne_dot (ws ds ss : List String)
    (hw : ∀ a ∈ ws, validCompStr a = true)
    (hds : NFComps ds = true) (hss : NFComps ss = true) (hne : ds ≠ ss) :
    relpathStr (absOf ws) (joinComps ds) (joinComps ss) ≠ "." := by
  unfold relpathStr relpathCs
  rw [abspathComps_rel ws ds hw hds, abspathComps_rel ws ss hw hss]
  dsimp only
  rw [List.map_append, List.map_append, commonPrefixLen_append_both]
  have hdsval : ∀ r ∈ ds.map String.data, r ≠ [] ∧ r ≠ ['.'] := by
    intro r hr
    rcases List.mem_map.mp hr with ⟨d, hd, rfl⟩
    have := validComp_props d.data ((NFComps_props ds hds).2 d hd)
    exact ⟨this.1, this.2.1⟩
  have hdrop : ∀ i, List.drop ((ws.map String.data).length + i)
      (ws.map String.data ++ ds.map String.data) = List.drop i (ds.map String.data) :=
    fun i => List.drop_append i
  by_cases hlt : commonPrefixLen (ss.map String.data) (ds.map String.data)
      < (ss.map String.data).length
  · have hups : (ws.map String.data ++ ss.map String.data).length -
        ((ws.map String.data).length +
          commonPrefixLen (ss.map String.data) (ds.map String.data)) ≠ 0 := by
      simp only [List.length_append]
      omega
    set rel := List.replicate ((ws.map String.data ++ ss.map String.data).length -
        ((ws.map String.data).length +
          commonPrefixLen (ss.map String.data) (ds.map String.data))) ['.', '.'] ++
      List.drop ((ws.map String.data).length +
          commonPrefixLen (ss.map String.data) (ds.map String.data))
        (ws.map String.data ++ ds.map String.data) with hrel
    have hrelne : rel ≠ [] := by
      rw [hrel]
      intro h
      rcases List.append_eq_nil.mp h with ⟨h1, _⟩
      exact hups (by simpa using congrArg List.length h1)
    rw [if_neg hrelne]
    apply ne_of_data_ne
    show joinSlash rel ≠ ['.']
    apply joinSlash_ne_dot_pieces rel hrelne
    intro r hrmem
    rw [hrel] at hrmem
    rcases List.mem_append.mp hrmem with h1 | h2
    · have := (List.mem_replicate.mp h1).2
      subst this
      exact ⟨by simp, by simp⟩
    · rw [hdrop] at h2
      exact hdsval r (List.mem_of_mem_drop h2)
  · have hle := commonPrefixLen_le_left (ss.map String.data) (ds.map String.data)
    have hceq : commonPrefixLen (ss.map String.data) (ds.map String.data)
        = (ss.map String.data).length := by omega
    have hdlt : (ss.map String.data).length < (ds.map String.data).length := by
      rcases Nat.lt_or_ge (ss.map String.data).length (ds.map String.data).length
        with h | h
      · exact h
      · exfalso
        have hmapeq : ss.map String.data = ds.map String.data :=
          commonPrefixLen_full _ _ hceq h
        have : ss = ds := by
          have h2 := congrArg (List.map String.mk) hmapeq
          simpa only [List.map_map, Function.comp_def, mk_data_id, List.map_id',
            List.map_id] using h2
        exact hne this.symm
    have hdropne : List.drop (commonPrefixLen (ss.map String.data) (ds.map String.data))
        (ds.map String.data) ≠ [] := by
      intro h
      have := List.drop_eq_nil_iff.mp h
      omega
    have hups0 : (ws.map String.data ++ ss.map String.data).length -
        ((ws.map String.data).length +
          commonPrefixLen (ss.map String.data) (ds.map String.data)) = 0 := by
      simp only [List.length_append]
      omega
    rw [hups0, List.replicate_zero, List.nil_append, hdrop]
    rw [if_neg hdropne]
    apply ne_of_data_ne
    show joinSlash _ ≠ ['.']
    apply joinSlash_ne_dot_pieces _ hdropne
    intro r hrmem
    exact hdsval r (List.mem_of_mem_drop hrmem)

/-! ### Sorted iteration order (C5) -/

theorem ltCs_asymm : ∀ a b : List Char, ltCs a b = true → ltCs b a = false := by
  intro a
  induction a with
  | nil =>
    intro b h
    cases b with
    | nil => simp [ltCs] at h
    | cons y ys => simp [ltCs]
  | cons x xs ih =>
    intro b h
    cases b with
    | nil => simp [ltCs] at h
    | cons y ys =>
      simp only [ltCs] at h ⊢
      by_cases h1 : x.toNat < y.toNat
      · rw [if_pos h1] at h
        rw [if_neg (show ¬ y.toNat < x.toNat by omega), if_pos h1]
      · rw [if_neg h1] at h
        by_cases h2 : y.toNat < x.toNat
        · rw [if_pos h2] at h
          cases h
        · rw [if_neg h2] at h
          rw [if_neg h2, if_neg h1]
          exact ih ys h

theorem ltCs_false_trans :
    ∀ a b c : List Char, ltCs b a = false → ltCs c b = false → ltCs c a = false := by
  intro a
  induction a with
  | nil =>
    intro b c h1 h2
    cases c <;> simp [ltCs]
  | cons x xs ih =>
    intro b c h1 h2
    cases b with
    | nil => simp [ltCs] at h1
    | cons y ys =>
      cases c with
      | nil => simp [ltCs] at h2
      | cons z zs =>
        simp only [ltCs] at h1 h2 ⊢
        by_cases hyx : y.toNat < x.toNat
        · rw [if_pos hyx] at h1
          cases h1
        · rw [if_neg hyx] at h1
          by_cases hzy : z.toNat < y.toNat
          · rw [if_pos hzy] at h2
            cases h2
          · rw [if_neg hzy] at h2
            rw [if_neg (show ¬ z.toNat < x.toNat by omega)]
            by_cases hxz : x.toNat < z.toNat
            · rw [if_pos hxz]
            · rw [if_neg hxz]
              have hxy : ¬ x.toNat < y.toNat := by omega
              have hyz : ¬ y.toNat < z.toNat := by omega
              rw [if_neg hxy] at h1
              rw [if_neg hyz] at h2
              exact ih ys zs h1 h2

theorem insertAsc_pairwise (a : String) (l : List String)
    (h : List.Pairwise (fun p q => strLt q p = false) l) :
    List.Pairwise (fun p q => strLt q p = false) (insertAsc a l) := by
  induction l with
  | nil => simp [insertAsc]
  | cons b bs ih =>
    rw [List.pairwise_cons] at h
    obtain ⟨hb, hbs⟩ := h
    unfold insertAsc
    by_cases hba : strLt b a = true
    · rw [if_pos hba]
      rw [List.pairwise_cons]
      refine ⟨?_, ih hbs⟩
      intro y hy
      rcases (mem_insertAsc a y bs).mp hy with rfl | hy2
      · exact ltCs_asymm b.data y.data hba
      · exact hb y hy2
    · rw [if_neg hba]
      rw [List.pairwise_cons]
      refine ⟨?_, ?_⟩
      · intro y hy
        rcases List.mem_cons.mp hy with rfl | hy2
        · simpa using hba
        · exact ltCs_false_trans a.data b.data y.data (by simpa using hba) (hb y hy2)
      · rw [List.pairwise_cons]
        exact ⟨hb, hbs⟩

theorem pySorted_pairwise (xs : List String) :
    List.Pairwise (fun p q => strLt q p = false) (pySorted xs) := by
  induction xs with
  | nil => simp [pySorted]
  | cons x xs ih =>
    show List.Pairwise _ (insertAsc x (pySorted xs))
    exact insertAsc_pairwise x _ ih

theorem insertAsc_perm (a : String) (l : List String) :
    List.Perm (insertAsc a l) (a :: l) := by
  induction l with
  | nil => exact List.Perm.refl _
  | cons b bs ih =>
    unfold insertAsc
    by_cases h : strLt b a = true
    · rw [if_pos h]
      exact (List.Perm.cons b ih).trans (List.Perm.swap a b bs)
    · rw [if_neg h]

theorem pySorted_perm (xs : List String) : List.Perm (pySorted xs) xs := by
  induction xs with
  | nil => exact List.Perm.refl _
  | cons x xs ih =>
    show List.Perm (insertAsc x (pySorted xs)) _
    exact (insertAsc_perm x _).trans (List.Perm.cons x ih)

theorem pySortedSet_nodup (xs : List String) : (pySortedSet xs).Nodup :=
  ((pySorted_perm xs.dedup).nodup_iff).mpr (List.nodup_dedup xs)

/-- C5: on the example chroot with files `b.txt`, `a.txt` and `dir/c.txt`
tracked under one label, `zip` emits entries named exactly `a.txt`, `b.txt`,
`dir/`, `dir/c.txt` in that order — the directory entry `dir/` preceding the
first file inside it (the parent-dir pass of the loop runs before each file
entry; the general before-the-file ordering is with the parent-directory
machinery).  In general `iter_files` consumes the selected paths exactly as
`sorted(set(selected_files))`, a duplicate-free list that is non-decreasing
in Python string order, and the `sorted(files)` applied to every walked
directory's file list is the same non-decreasing sort. -/
theorem c5_entry_order :
    zipNamesModel cfgPlain true mtZero ltZero fsOrder fssOrder none =
      ["a.txt", "b.txt", "dir/", "dir/c.txt"] ∧
    (∀ (cfg : ZCfg) (fs : FSNode) (sel : List String),
      iterFiles cfg fs sel = (pySortedSet sel).flatMap (iterGroup cfg fs)) ∧
    (∀ xs : List String, (pySortedSet xs).Nodup ∧
      List.Pairwise (fun a b => strLt b a = false) (pySortedSet xs)) ∧
    (∀ xs : List String, List.Pairwise (fun a b => strLt b a = false) (pySorted xs)) := by
  refine ⟨by rfl, fun cfg fs sel => rfl,
    fun xs => ⟨pySortedSet_nodup xs, pySorted_pairwise xs.dedup⟩,
    fun xs => pySorted_pairwise xs⟩

/-! ### Exclusion predicate (C6) -/

/-- C6 counterexample: the exclusion predicate matches the walked file
`d/secret` by its full path `/cr/d/secret` — the very string `iter_files`
tests for a top-level selected file — yet the file gets an archive entry and
its bytes are read, because for files found by walking a directory the
predicate is applied to the bare name `secret` only. -/
theorem c6_full_path_cex :
    cfgSecretFullPath.exclude_file (pyJoin cfgSecretFullPath.base "d/secret") = true ∧
    zipNamesModel cfgSecretFullPath true mtZero ltZero fsSecret [(none, ["d"])] none =
      ["d/", "d/secret"] ∧
    ["d", "secret"] ∈ readPaths cfgSecretFullPath fsSecret ["d"] :=
  ⟨by decide, by rfl, by decide⟩

/-- C6 amended: the predicate is evaluated per file, but on different
strings: for a top-level selected file it sees the full
`os.path.join(self.chroot, path)` and a match removes the whole group, while
every file yielded from walking a selected directory has been tested by its
bare name only (the last component of the yielded pair).  Under the test the
code actually applies, an excluded file is skipped entirely — it gets no
entry and `readPaths` shows its bytes are never opened — and exclusion does
not suppress the parent directory entry when a sibling survives: excluding
`secrets.txt` by bare name still emits `d/` for its sibling `d/public.txt`,
and the spec's own top-level example works with the full-path predicate. -/
theorem c6_exclusion_amended :
    (∀ (cfg : ZCfg) (fs : FSNode) (path : String) (m : Nat) (d : List Nat),
      lookupComps fs (relComps path) = some (.file m d) →
      cfg.exclude_file (pyJoin cfg.base path) = true →
      iterGroup cfg fs path = []) ∧
    (∀ (cfg : ZCfg) (fs : FSNode) (path : String) (m : Nat)
        (es : List (String × FSNode)),
      lookupComps fs (relComps path) = some (.dir m es) →
      ∀ pr ∈ iterGroup cfg fs path, cfg.exclude_file (pr.1.getLastD "") = false) ∧
    zipNamesModel cfgSecretName true mtZero ltZero fsSiblings [(none, ["d"])] none =
      ["d/", "d/public.txt"] ∧
    readPaths cfgSecretName fsSiblings ["d"] = [["d", "public.txt"]] ∧
    zipNamesModel cfgSecretTop true mtZero ltZero fsTop
      [(none, ["secrets.txt", "public.txt"])] none = ["public.txt"] ∧
    readPaths cfgSecretTop fsTop ["secrets.txt", "public.txt"] = [["public.txt"]] := by
  refine ⟨?_, ?_, by rfl, by rfl, by rfl, by rfl⟩
  · intro cfg fs path m d hlook hexcl
    unfold iterGroup
    dsimp only
    rw [hlook]
    dsimp only
    rw [if_pos hexcl]
  · intro cfg fs path m es hlook pr hpr
    unfold iterGroup at hpr
    dsimp only at hpr
    rw [hlook] at hpr
    dsimp only at hpr
    rcases List.mem_flatMap.mp hpr with ⟨t, ht, hpr2⟩
    rcases List.mem_filterMap.mp hpr2 with ⟨f, hf, heq⟩
    by_cases hex : cfg.exclude_file f = true
    · rw [if_pos hex] at heq
      cases heq
    · rw [if_neg hex] at heq
      injection heq with heq2
      rw [← heq2]
      dsimp only
      rw [List.getLastD_concat]
      simpa using hex

/-- Witness for C6 amended: the top-level file `secrets.txt`, excluded by its
full path, yields nothing; and the walked pair for `d/public.txt` passes the
bare-name test the code applies. -/
theorem c6_exclusion_amended_witness :
    iterGroup cfgSecretTop fsTop "secrets.txt" = [] ∧
    cfgSecretName.exclude_file
      ((["d", "public.txt"] : List String).getLastD "") = false := by
  constructor
  · exact c6_exclusion_amended.1 cfgSecretTop fsTop "secrets.txt" 0o100644 [1]
      (by rfl) (by decide)
  · exact c6_exclusion_amended.2.1 cfgSecretName fsSiblings "d" 0o40755
      [("secrets.txt", .file 0o100644 [1]), ("public.txt", .file 0o100644 [2])]
      (by rfl) (["d", "public.txt"], "d/public.txt") (by decide)

/-! ### Parent directory entries (C8) -/

theorem chainOf_succ (w : List String) (fuel : Nat) (path : String) :
    chainOf w (fuel + 1) path =
      match get_parent_dir path with
      | none => some []
      | some parent =>
        if parent ∈ w then some []
        else
          match chainOf w fuel parent with
          | none => none
          | some c => some (c ++ [parent]) := rfl

theorem chainOf_mono (w : List String) :
    ∀ (fuel : Nat) (p : String) (c : List String),
      chainOf w fuel p = some c → chainOf w (fuel + 1) p = some c := by
  intro fuel
  induction fuel with
  | zero =>
    intro p c h
    cases h
  | succ n ih =>
    intro p c h
    rw [chainOf_succ] at h
    rw [chainOf_succ]
    cases hgp : get_parent_dir p with
    | none =>
      rw [hgp] at h
      dsimp only at h ⊢
      exact h
    | some parent =>
      rw [hgp] at h
      dsimp only at h ⊢
      by_cases hw : parent ∈ w
      · rw [if_pos hw] at h ⊢
        exact h
      · rw [if_neg hw] at h ⊢
        cases hc : chainOf w n parent with
        | none =>
          rw [hc] at h
          cases h
        | some c1 =>
          rw [hc] at h
          rw [ih parent c1 hc]
          exact h

theorem chainOf_mono_add (w : List String) (fuel : Nat) (p : String) (c : List String)
    (h : chainOf w fuel p = some c) :
    ∀ j, chainOf w (fuel + j) p = some c := by
  intro j
  induction j with
  | zero => exact h
  | succ n ih => exact chainOf_mono w (fuel + n) p c ih

theorem chain_elem_len (w : List String) :
    ∀ (fuel : Nat) (p : String) (c : List String), chainOf w fuel p = some c →
      ∀ x ∈ c, ∃ cx, chainOf w fuel x = some cx ∧ cx.length < c.length := by
  intro fuel
  induction fuel with
  | zero =>
    intro p c h
    cases h
  | succ n ih =>
    intro p c h
    rw [chainOf_succ] at h
    cases hgp : get_parent_dir p with
    | none =>
      rw [hgp] at h
      dsimp only at h
      injection h with h2
      rw [← h2]
      intro x hx
      cases hx
    | some parent =>
      rw [hgp] at h
      dsimp only at h
      by_cases hw : parent ∈ w
      · rw [if_pos hw] at h
        injection h with h2
        rw [← h2]
        intro x hx
        cases hx
      · rw [if_neg hw] at h
        cases hc : chainOf w n parent with
        | none =>
          rw [hc] at h
          cases h
        | some c1 =>
          rw [hc] at h
          injection h with h2
          rw [← h2]
          intro x hx
          rcases List.mem_append.mp hx with hx1 | hx2
          · obtain ⟨cx, hcx, hlen⟩ := ih parent c1 hc x hx1
            refine ⟨cx, chainOf_mono w n x cx hcx, ?_⟩
            simp only [List.length_append, List.length_cons, List.length_nil]
            omega
          · have hxp : x = parent := by simpa using hx2
            rw [hxp]
            refine ⟨c1, chainOf_mono w n parent c1 hc, ?_⟩
            simp

theorem chainOf_nodup (w : List String) :
    ∀ (fuel : Nat) (p : String) (c : List String),
      chainOf w fuel p = some c → c.Nodup := by
  intro fuel
  induction fuel with
  | zero =>
    intro p c h
    cases h
  | succ n ih =>
    intro p c h
    rw [chainOf_succ] at h
    cases hgp : get_parent_dir p with
    | none =>
      rw [hgp] at h
      dsimp only at h
      injection h with h2
      rw [← h2]
      exact List.nodup_nil
    | some parent =>
      rw [hgp] at h
      dsimp only at h
      by_cases hw : parent ∈ w
      · rw [if_pos hw] at h
        injection h with h2
        rw [← h2]
        exact List.nodup_nil
      · rw [if_neg hw] at h
        cases hc : chainOf w n parent with
        | none =>
          rw [hc] at h
          cases h
        | some c1 =>
          rw [hc] at h
          injection h with h2
          rw [← h2]
          have hnp : parent ∉ c1 := by
            intro hmem
            obtain ⟨cx, hcx, hlen⟩ := chain_elem_len w n parent c1 hc parent hmem
            rw [hcx] at hc
            injection hc with hc2
            rw [hc2] at hlen
            omega
          simp [List.nodup_append, ih parent c1 hc, hnp]

theorem chainOf_fresh (w : List String) :
    ∀ (fuel : Nat) (p : String) (c : List String),
      chainOf w fuel p = some c → ∀ x ∈ c, x ∉ w := by
  intro fuel
  induction fuel with
  | zero =>
    intro p c h
    cases h
  | succ n ih =>
    intro p c h
    rw [chainOf_succ] at h
    cases hgp : get_parent_dir p with
    | none =>
      rw [hgp] at h
      dsimp only at h
      injection h with h2
      rw [← h2]
      intro x hx
      cases hx
    | some parent =>
      rw [hgp] at h
      dsimp only at h
      by_cases hw : parent ∈ w
      · rw [if_pos hw] at h
        injection h with h2
        rw [← h2]
        intro x hx
        cases hx
      · rw [if_neg hw] at h
        cases hc : chainOf w n parent with
        | none =>
          rw [hc] at h
          cases h
        | some c1 =>
          rw [hc] at h
          injection h with h2
          rw [← h2]
          intro x hx
          rcases List.mem_append.mp hx with hx1 | hx2
          · exact ih parent c1 hc x hx1
          · have hxp : x = parent := by simpa using hx2
            rw [hxp]
            exact hw

theorem mwpd_succ (cfg : ZCfg) (det : Bool) (mt : List String → Nat) (lt : Nat → DT6)
    (fs : FSNode) (fuel : Nat) (path : String) (st : ZState) :
    maybe_write_parent_dirs cfg det mt lt fs (fuel + 1) path st =
      match get_parent_dir path with
      | none => .ok st
      | some parent =>
        if parent ∈ st.written_dirs then .ok st
        else
          match maybe_write_parent_dirs cfg det mt lt fs fuel parent st with
          | .error e => .error e
          | .ok st1 =>
            match (if cfg.stripPfx = some parent then Except.ok st1
                   else (write_entry cfg det mt lt fs (relComps parent) parent).map
                     (fun e => { st1 with acc := st1.acc ++ [e] })) with
            | .error e => .error e
            | .ok st2 =>
              .ok { st2 with written_dirs := st2.written_dirs ++ [parent] } := rfl

theorem mwpd_chain (cfg : ZCfg) (det : Bool) (mt : List String → Nat) (lt : Nat → DT6)
    (fs : FSNode) :
    ∀ (fuel : Nat) (path : String) (st st' : ZState),
      maybe_write_parent_dirs cfg det mt lt fs fuel path st = .ok st' →
      ∃ c d, chainOf st.written_dirs fuel path = some c ∧
        st'.written_dirs = st.written_dirs ++ c ∧
        st'.acc = st.acc ++ d ∧
        d.length = (c.filter (fun p => cfg.stripPfx ≠ some p)).length := by
  intro fuel
  induction fuel with
  | zero =>
    intro path st st' h
    cases h
  | succ n ih =>
    intro path st st' h
    rw [mwpd_succ] at h
    cases hgp : get_parent_dir path with
    | none =>
      rw [hgp] at h
      dsimp only at h
      injection h with h2
      subst h2
      exact ⟨[], [], by rw [chainOf_succ, hgp], by simp, by simp, by simp⟩
    | some parent =>
      rw [hgp] at h
      dsimp only at h
      by_cases hw : parent ∈ st.written_dirs
      · rw [if_pos hw] at h
        injection h with h2
        subst h2
        refine ⟨[], [], ?_, by simp, by simp, by simp⟩
        rw [chainOf_succ, hgp]
        dsimp only
        rw [if_pos hw]
      · rw [if_neg hw] at h
        cases hrec : maybe_write_parent_dirs cfg det mt lt fs n parent st with
        | error e =>
          rw [hrec] at h
          cases h
        | ok st1 =>
          rw [hrec] at h
          dsimp only at h
          obtain ⟨c1, d1, hc1, hw1, ha1, hl1⟩ := ih parent st st1 hrec
          have hcgoal : chainOf st.written_dirs (n + 1) path = some (c1 ++ [parent]) := by
            rw [chainOf_succ, hgp]
            dsimp only
            rw [if_neg hw, hc1]
          by_cases hstrip : cfg.stripPfx = some parent
          · rw [if_pos hstrip] at h
            dsimp only at h
            injection h with h2
            subst h2
            refine ⟨c1 ++ [parent], d1, hcgoal, ?_, ?_, ?_⟩
            · dsimp only
              rw [hw1, List.append_assoc]
            · exact ha1
            · rw [hl1, List.filter_append]
              have : List.filter (fun p => cfg.stripPfx ≠ some p) [parent] = [] := by
                simp [hstrip]
              rw [this, List.append_nil]
          · rw [if_neg hstrip] at h
            cases hwe : write_entry cfg det mt lt fs (relComps parent) parent with
            | error e =>
              rw [hwe] at h
              dsimp only [Except.map] at h
              cases h
            | ok e =>
              rw [hwe] at h
              dsimp only [Except.map] at h
              injection h with h2
              subst h2
              refine ⟨c1 ++ [parent], d1 ++ [e], hcgoal, ?_, ?_, ?_⟩
              · dsimp only
                rw [hw1, List.append_assoc]
              · dsimp only
                rw [ha1, List.append_assoc]
              · rw [List.filter_append]
                have hkeep : List.filter (fun p => cfg.stripPfx ≠ some p) [parent] =
                    [parent] := by
                  simp [hstrip]
                rw [hkeep]
                simp only [List.length_append, List.length_cons, List.length_nil]
                omega

theorem chainOf_closed (w : List String) :
    ∀ (fuel : Nat) (p : String) (c : List String), chainOf w fuel p = some c →
      ParentClosed w →
      ParentClosed (w ++ c) ∧ (∀ q, get_parent_dir p = some q → q ∈ w ++ c) := by
  intro fuel
  induction fuel with
  | zero =>
    intro p c h
    cases h
  | succ n ih =>
    intro p c h hcl
    rw [chainOf_succ] at h
    cases hgp : get_parent_dir p with
    | none =>
      rw [hgp] at h
      injection h with h2
      subst h2
      rw [List.append_nil]
      refine ⟨hcl, ?_⟩
      intro q hq
      cases hq
    | some parent =>
      rw [hgp] at h
      dsimp only at h
      by_cases hw : parent ∈ w
      · rw [if_pos hw] at h
        injection h with h2
        subst h2
        rw [List.append_nil]
        refine ⟨hcl, ?_⟩
        intro q hq
        injection hq with h3
        rw [← h3]
        exact hw
      · rw [if_neg hw] at h
        cases hc : chainOf w n parent with
        | none =>
          rw [hc] at h
          cases h
        | some c1 =>
          rw [hc] at h
          injection h with h2
          subst h2
          obtain ⟨ih1, ih2⟩ := ih parent c1 hc hcl
          have hsub : ∀ x, x ∈ w ++ c1 → x ∈ w ++ (c1 ++ [parent]) := by
            intro x hx
            rcases List.mem_append.mp hx with h1 | h1
            · exact List.mem_append_left _ h1
            · exact List.mem_append_right _ (List.mem_append_left _ h1)
          refine ⟨?_, ?_⟩
          · intro p2 hp2 q hq
            rcases List.mem_append.mp hp2 with h1 | h1
            · exact hsub q (ih1 p2 (List.mem_append_left _ h1) q hq)
            · rcases List.mem_append.mp h1 with h2 | h2
              · exact hsub q (ih1 p2 (List.mem_append_right _ h2) q hq)
              · have hp2p : p2 = parent := by simpa using h2
                rw [hp2p] at hq
                exact hsub q (ih2 q hq)
          · intro q hq
            injection hq with h3
            rw [← h3]
            exact List.mem_append_right _ (List.mem_append_right _ (by simp))

theorem parent_closed_iter (w : List String) (hcl : ParentClosed w) :
    ∀ (k : Nat) (p q : String), parentIterN (k + 1) p = some q →
      (∀ q0, get_parent_dir p = some q0 → q0 ∈ w) → q ∈ w := by
  intro k
  induction k with
  | zero =>
    intro p q h h0
    simp only [parentIterN] at h
    cases hgp : get_parent_dir p with
    | none =>
      rw [hgp] at h
      cases h
    | some q1 =>
      rw [hgp] at h
      dsimp only [parentIterN] at h
      injection h with h2
      rw [← h2]
      exact h0 q1 hgp
  | succ n ih =>
    intro p q h h0
    simp only [parentIterN] at h
    cases hgp : get_parent_dir p with
    | none =>
      rw [hgp] at h
      cases h
    | some q1 =>
      rw [hgp] at h
      have hq1 : q1 ∈ w := h0 q1 hgp
      exact ih q1 q h (fun q0 hq0 => hcl q1 hq1 q0 hq0)

theorem zipLoop_append (cfg : ZCfg) (det : Bool) (mt : List String → Nat) (lt : Nat → DT6)
    (fs : FSNode) (l1 l2 : List (List String × String)) :
    ∀ st : ZState, zipLoop cfg det mt lt fs (l1 ++ l2) st =
      match zipLoop cfg det mt lt fs l1 st with
      | .error e => .error e
      | .ok st1 => zipLoop cfg det mt lt fs l2 st1 := by
  induction l1 with
  | nil => intro st; rfl
  | cons pr rest ih =>
    obtain ⟨comps, arc⟩ := pr
    intro st
    rw [List.cons_append]
    cases hm : maybe_write_parent_dirs cfg det mt lt fs (arc.length + 1) arc st with
    | error e => simp only [zipLoop, hm]
    | ok st1 =>
      cases hwe : write_entry cfg det mt lt fs comps arc with
      | error e => simp only [zipLoop, hm, hwe]
      | ok e =>
        simp only [zipLoop, hm, hwe]
        exact ih _

theorem zipLoop_state (cfg : ZCfg) (det : Bool) (mt : List String → Nat) (lt : Nat → DT6)
    (fs : FSNode) :
    ∀ (pairs : List (List String × String)) (st st' : ZState),
      zipLoop cfg det mt lt fs pairs st = .ok st' →
      ∃ w a, st'.written_dirs = st.written_dirs ++ w ∧ st'.acc = st.acc ++ a ∧
        a.length = pairs.length +
          (w.filter (fun p => cfg.stripPfx ≠ some p)).length ∧
        (st.written_dirs.Nodup → st'.written_dirs.Nodup) ∧
        (ParentClosed st.written_dirs →
          ParentClosed st'.written_dirs ∧
          ∀ pr ∈ pairs, ∀ q, get_parent_dir pr.2 = some q → q ∈ st'.written_dirs) := by
  intro pairs
  induction pairs with
  | nil =>
    intro st st' h
    injection h with h2
    subst h2
    exact ⟨[], [], by simp, by simp, by simp, fun hn => hn,
      fun hc => ⟨hc, by simp⟩⟩
  | cons pr rest ih =>
    obtain ⟨comps, arc⟩ := pr
    intro st st' h
    simp only [zipLoop] at h
    cases hm : maybe_write_parent_dirs cfg det mt lt fs (arc.length + 1) arc st with
    | error e =>
      rw [hm] at h
      cases h
    | ok st1 =>
      rw [hm] at h
      dsimp only at h
      cases hwe : write_entry cfg det mt lt fs comps arc with
      | error e =>
        rw [hwe] at h
        cases h
      | ok e =>
        rw [hwe] at h
        dsimp only at h
        obtain ⟨c, d, hc, hwrit, hacc, hlen⟩ := mwpd_chain cfg det mt lt fs _ arc st st1 hm
        obtain ⟨w2, a2, hw2, ha2, hl2, hnd2, hcl2⟩ := ih _ st' h
        dsimp only at hw2 ha2 hnd2 hcl2
        refine ⟨c ++ w2, (d ++ [e]) ++ a2, ?_, ?_, ?_, ?_, ?_⟩
        · rw [hw2, hwrit, List.append_assoc]
        · rw [ha2, hacc]
          simp [List.append_assoc]
        · simp only [List.length_append, List.length_cons, List.length_nil,
            List.filter_append] at hl2 ⊢
          omega
        · intro hnd
          apply hnd2
          rw [hwrit, List.nodup_append]
          exact ⟨hnd, chainOf_nodup _ _ _ _ hc,
            fun x hx hx2 => chainOf_fresh _ _ _ _ hc x hx2 hx⟩
        · intro hcl
          have hcl1 : ParentClosed st1.written_dirs ∧
              (∀ q, get_parent_dir arc = some q → q ∈ st1.written_dirs) := by
            rw [hwrit]
            exact chainOf_closed st.written_dirs _ arc c hc hcl
          obtain ⟨hclS, hmemS⟩ := hcl2 hcl1.1
          refine ⟨hclS, ?_⟩
          intro pr2 hpr2 q hq
          rcases List.mem_cons.mp hpr2 with hhd | htl
          · rw [hhd] at hq
            dsimp only at hq
            have hq1 : q ∈ st1.written_dirs := hcl1.2 q hq
            rw [hw2]
            exact List.mem_append_left _ hq1
          · exact hmemS pr2 htl q hq

/-- C8: over one successful `zip` run, (1) the written-directories list never
records a directory twice, so the guard `parent not in written` makes every
directory entry unique; (2) the archive holds exactly one entry per yielded
file plus one per recorded directory other than the strip root — the
`strip_prefix` directory is recorded but contributes no entry; (3) every
iterated proper ancestor (`get_parent_dir` applied one or more times) of every
yielded arcname ends up recorded; and (4) each yielded file's entry is
appended only after `maybe_write_parent_dirs` finished for its arcname, at
which point all its ancestors are recorded — the ancestor directory entries
sit in the accumulator strictly before the file's own entry. -/
theorem c8_parent_dir_invariants (cfg : ZCfg) (det : Bool) (mt : List String → Nat)
    (lt : Nat → DT6) (fs : FSNode) (pairs : List (List String × String)) (st' : ZState)
    (hrun : zipLoop cfg det mt lt fs pairs ⟨[], []⟩ = .ok st') :
    st'.written_dirs.Nodup ∧
    st'.acc.length = pairs.length +
      (st'.written_dirs.filter (fun p => cfg.stripPfx ≠ some p)).length ∧
    (∀ pr ∈ pairs, ∀ (k : Nat) (q : String),
      parentIterN (k + 1) pr.2 = some q → q ∈ st'.written_dirs) ∧
    (∀ l1 pr l2, pairs = l1 ++ pr :: l2 →
      ∃ st0 st1 e a,
        zipLoop cfg det mt lt fs l1 ⟨[], []⟩ = .ok st0 ∧
        maybe_write_parent_dirs cfg det mt lt fs (pr.2.length + 1) pr.2 st0 = .ok st1 ∧
        write_entry cfg det mt lt fs pr.1 pr.2 = .ok e ∧
        st'.acc = st1.acc ++ [e] ++ a ∧
        (∀ q, get_parent_dir pr.2 = some q → q ∈ st1.written_dirs)) := by
  obtain ⟨w, a, hw, ha, hlen, hnd, hclp⟩ :=
    zipLoop_state cfg det mt lt fs pairs ⟨[], []⟩ st' hrun
  have hcl0 : ParentClosed ([] : List String) := by
    intro p hp
    cases hp
  obtain ⟨hclS, hmemS⟩ := hclp hcl0
  refine ⟨hnd List.nodup_nil, ?_, ?_, ?_⟩
  · rw [ha, hw]
    simpa using hlen
  · intro pr hpr k q hq
    exact parent_closed_iter st'.written_dirs hclS k pr.2 q hq
      (fun q0 hq0 => hmemS pr hpr q0 hq0)
  · intro l1 pr lrest hsplit
    obtain ⟨comps, arc⟩ := pr
    rw [hsplit] at hrun
    rw [zipLoop_append] at hrun
    cases h0 : zipLoop cfg det mt lt fs l1 ⟨[], []⟩ with
    | error e =>
      rw [h0] at hrun
      cases hrun
    | ok st0 =>
      rw [h0] at hrun
      dsimp only at hrun
      simp only [zipLoop] at hrun
      cases hm : maybe_write_parent_dirs cfg det mt lt fs (arc.length + 1) arc st0 with
      | error e =>
        rw [hm] at hrun
        cases hrun
      | ok st1 =>
        rw [hm] at hrun
        dsimp only at hrun
        cases hwe : write_entry cfg det mt lt fs comps arc with
        | error e =>
          rw [hwe] at hrun
          cases hrun
        | ok e =>
          rw [hwe] at hrun
          dsimp only at hrun
          obtain ⟨w2, a2, hw2, ha2, _, _, _⟩ :=
            zipLoop_state cfg det mt lt fs lrest _ st' hrun
          dsimp only at hw2 ha2
          obtain ⟨c, d, hcc, hwrit, _, _⟩ := mwpd_chain cfg det mt lt fs _ arc st0 st1 hm
          obtain ⟨_, _, _, _, _, hnd0, hclp0⟩ :=
            zipLoop_state cfg det mt lt fs l1 ⟨[], []⟩ st0 h0
          obtain ⟨hcl0b, _⟩ := hclp0 hcl0
          refine ⟨st0, st1, e, a2, rfl, hm, rfl, ?_, ?_⟩
          · rw [ha2]
          · intro q hq
            rw [hwrit]
            exact (chainOf_closed st0.written_dirs _ arc c hcc hcl0b).2 q hq

/-- Witness for C8 at a concrete run: two files below the nested ancestor
`d/e`, with strip root `d`.  The written list is duplicate-free, the archive
holds the two file entries plus the single `d/e` directory entry — the strip
root `d` is recorded (as the witness's last conjunct shows, being the
twice-iterated parent of the first arcname) yet contributes no entry. -/
theorem c8_parent_dir_invariants_witness :
    c8st.written_dirs.Nodup ∧
    c8st.acc.length = c8pairs.length +
      (c8st.written_dirs.filter (fun p => cfgStrip.stripPfx ≠ some p)).length ∧
    "d" ∈ c8st.written_dirs := by
  have h := c8_parent_dir_invariants cfgStrip true mtZero ltZero fsDeep c8pairs c8st
    (by rfl)
  refine ⟨h.1, h.2.1, ?_⟩
  exact h.2.2.1 (["d", "e", "f.txt"], "d/e/f.txt") (by decide) 1 "d" (by decide)

end Pex
